import Mathlib

/-!
Verification development for the `useInlineTask` inline-script system:
a shallow embedding of the runtime (`use-inline-task.tsx`) and of the
build-time transformer (`vite-plugin-inline-task.ts`), with theorems about
escaping, capture resolution, the lexical classifier, scope tracking,
auto-capture edits, return injection and the driver's gating behaviour.

Part 1: list/string utilities.
Part 2: the runtime `useInlineTask` (resource/signal resolution, JSON
        serialisation, script-source escaping, sync vs async paths).
Part 3: the transformer (TypeScript AST fragment, lexical classifier,
        free-variable walk, auto-capture, return injection, driver).
Theorems follow all definitions.
-/

/-! ### Part 1 — utilities -/

/-- `hasSub q s` decides whether the character list `q` occurs as a
contiguous substring of `s` (the counterpart of JavaScript's
`String.prototype.includes` / regex matching of a literal pattern). -/
def hasSub (q : List Char) : List Char → Bool
  | [] => q.isEmpty
  | c :: t => q.isPrefixOf (c :: t) || hasSub q t

/-- Substring test on `String`s. -/
def strHasSub (q s : String) : Bool := hasSub q.toList s.toList

/-- `strEndsWith suf s`: does `s` end with `suf`?  Used to model the
extension regex of the driver. -/
def strEndsWith (suf s : String) : Bool := suf.toList.isSuffixOf s.toList

/-! ### Part 2 — the runtime (`use-inline-task.tsx`) -/

/-- Global replacement of the two-character pattern `</` by `<\/`,
the first `.replace(/<\//g, "<\\/")` of `escapeInlineScript`.  Scans left
to right, non-overlapping, exactly as a global regex replace of a literal
pattern does. -/
def escapeCloseTag : List Char → List Char
  | [] => []
  | [c] => [c]
  | c1 :: c2 :: rest =>
    if c1 = '<' ∧ c2 = '/' then '<' :: '\\' :: '/' :: escapeCloseTag rest
    else c1 :: escapeCloseTag (c2 :: rest)

/-- Global replacement of the four-character pattern `<!--` by `<\!--`,
the second global replace of `escapeInlineScript`. -/
def escapeComment : List Char → List Char
  | [] => []
  | [c1] => [c1]
  | [c1, c2] => [c1, c2]
  | [c1, c2, c3] => [c1, c2, c3]
  | c1 :: c2 :: c3 :: c4 :: rest =>
    if c1 = '<' ∧ c2 = '!' ∧ c3 = '-' ∧ c4 = '-' then
      '<' :: '\\' :: '!' :: '-' :: '-' :: escapeComment rest
    else c1 :: escapeComment (c2 :: c3 :: c4 :: rest)

/-- `escapeInlineScript`: escape sequences that would cause the HTML parser
to close or break the script tag (source lines 57-60 of the runtime). -/
def escapeInlineScript (code : String) : String :=
  ⟨escapeComment (escapeCloseTag code.toList)⟩

/-- JSON value universe for the serialised capture payloads. -/
inductive Json where
  | jnull
  | jbool (b : Bool)
  | jnum (n : Int)
  | jstr (s : String)
  | jarr (elems : List Json)
  | jobj (fields : List (String × Json))

mutual
/-- `JSON.stringify`, modelled for the value universe above (an external
JavaScript builtin; string contents are emitted between plain quotes).
Object fields are emitted in list order, mirroring JavaScript's
insertion-order iteration of string-keyed properties. -/
def stringify : Json → String
  | .jnull => "null"
  | .jbool b => if b then "true" else "false"
  | .jnum n => toString n
  | .jstr s => "\"" ++ s ++ "\""
  | .jarr es => "[" ++ stringifyList es ++ "]"
  | .jobj fs => "\x7b" ++ stringifyFields fs ++ "\x7d"

def stringifyList : List Json → String
  | [] => ""
  | [x] => stringify x
  | x :: y :: rest => stringify x ++ "," ++ stringifyList (y :: rest)

def stringifyFields : List (String × Json) → String
  | [] => ""
  | [f] => "\"" ++ f.1 ++ "\":" ++ stringify f.2
  | f :: g :: rest => "\"" ++ f.1 ++ "\":" ++ stringify f.2 ++ "," ++ stringifyFields (g :: rest)
end

/-- `_state` of a resource (`ResourceReturnInternal`). -/
inductive RState where
  | pending
  | resolved
  | rejected
  deriving DecidableEq

/-- A captured value as the runtime sees it.  A JavaScript value is opaque;
the runtime only probes it through the following observations:
* `hasResourceBrand` — the conjunction `v !== null && typeof v === "object"
  && v.__brand === "resource"` tested by `isResourceReturn`;
* `rstate` — the `_state` field read when the brand is present;
* `resolvedPayload` — the `_resolved` field;
* `promisePayload` — the value that the resource's `value` promise
  eventually resolves to;
* `isSig` — the verdict of the host framework's external `isSignal`;
* `sigValue` — the `value` attribute read when treated as a signal;
* `asIs` — the value itself as `JSON.stringify` serialises it. -/
structure CapVal where
  hasResourceBrand : Bool
  rstate : RState
  resolvedPayload : Json
  promisePayload : Json
  isSig : Bool
  sigValue : Json
  asIs : Json

/-- `isResourceReturn` (runtime source lines 49-55). -/
def isResourceReturn (v : CapVal) : Bool := v.hasResourceBrand

/-- One iteration of the capture-resolution loop (runtime lines 86-97):
the accumulator carries the `resolved` record (as an insertion-ordered
field list) and the `pendingResources` array. -/
def resolveStep (acc : List (String × Json) × List (String × CapVal))
    (kv : String × CapVal) : List (String × Json) × List (String × CapVal) :=
  if isResourceReturn kv.2 then
    if kv.2.rstate = RState.resolved then
      (acc.1 ++ [(kv.1, kv.2.resolvedPayload)], acc.2)
    else
      (acc.1, acc.2 ++ [(kv.1, kv.2)])
  else
    (acc.1 ++ [(kv.1, if kv.2.isSig then kv.2.sigValue else kv.2.asIs)], acc.2)

/-- The whole `for (const key of Object.keys(captures))` loop. -/
def resolveCaptures (captures : List (String × CapVal)) :
    List (String × Json) × List (String × CapVal) :=
  captures.foldl resolveStep ([], [])

/-- Awaiting one pending resource: the contribution written back by
`resource.value.then((v) => { resolved[key] = v; })`. -/
def awaitOne (kv : String × CapVal) : String × Json := (kv.1, kv.2.promisePayload)

/-- JavaScript property assignment `resolved[key] = v` on an
insertion-ordered field list: overwrite in place when the key exists,
append otherwise. -/
def jsAssign (fields : List (String × Json)) (key : String) (v : Json) :
    List (String × Json) :=
  if fields.any (fun f => f.1 = key) then
    fields.map (fun f => if f.1 = key then (key, v) else f)
  else fields ++ [(key, v)]

/-- The field list after all pending resources have settled and their
`.then` callbacks have written the awaited payloads into `resolved`. -/
def asyncResolved (resolved : List (String × Json)) (pending : List (String × CapVal)) :
    List (String × Json) :=
  pending.foldl (fun acc kv => jsAssign acc kv.1 kv.2.promisePayload) resolved

/-- The produced JSX element: tag plus the single `dangerouslySetInnerHTML`
content attribute (the object built by `jsx("script", {...})`). -/
structure ScriptElement where
  tag : String
  dangerouslySetInnerHTML : String
  deriving DecidableEq

/-- `makeScriptJsx` (runtime lines 62-64). -/
def makeScriptJsx (code : String) : ScriptElement :=
  ⟨"script", escapeInlineScript code⟩

/-- The runtime's return value: either an element returned synchronously,
or a promise that eventually produces the recorded element. -/
inductive ITResult where
  | element (el : ScriptElement)
  | promiseOf (el : ScriptElement)
  deriving DecidableEq

/-- The runtime `useInlineTask` (source lines 72-116).  The callback is
serialised via `.toString()`; it enters the model as its source text
`fnSource`.  `captures` is the optional second argument as an
insertion-ordered key/value list (`Object.keys` order). -/
def useInlineTask (fnSource : String) (captures : Option (List (String × CapVal))) :
    ITResult :=
  match captures with
  | none => .element (makeScriptJsx ("(" ++ fnSource ++ ")()"))
  | some caps =>
    let rp := resolveCaptures caps
    if rp.2.length = 0 then
      .element (makeScriptJsx
        ("(" ++ fnSource ++ ")(" ++ stringify (Json.jobj rp.1) ++ ")"))
    else
      .promiseOf (makeScriptJsx
        ("(" ++ fnSource ++ ")(" ++ stringify (Json.jobj (asyncResolved rp.1 rp.2)) ++ ")"))

/-- The script content of the element a result carries (for a promise, of
the element it eventually produces). -/
def contentOf : ITResult → String
  | .element el => el.dangerouslySetInnerHTML
  | .promiseOf el => el.dangerouslySetInnerHTML

/-- Whether the runtime returned the element synchronously. -/
def isSyncResult : ITResult → Bool
  | .element _ => true
  | .promiseOf _ => false

/-- The script source assembled before escaping, per branch of the runtime. -/
def assembledSource (fnSource : String) (captures : Option (List (String × CapVal))) :
    String :=
  match captures with
  | none => "(" ++ fnSource ++ ")()"
  | some caps =>
    let rp := resolveCaptures caps
    if rp.2.length = 0 then
      "(" ++ fnSource ++ ")(" ++ stringify (Json.jobj rp.1) ++ ")"
    else
      "(" ++ fnSource ++ ")(" ++ stringify (Json.jobj (asyncResolved rp.1 rp.2)) ++ ")"

/-- An entry is an unresolved resource iff the first loop defers it to
`pendingResources`. -/
def isUnresolvedResource (v : CapVal) : Bool :=
  isResourceReturn v && !(v.rstate = RState.resolved)

/-- The entries the first loop resolves immediately, in capture order
(specification-side restatement of the loop, used to describe the async
key order). -/
def nowEntries (captures : List (String × CapVal)) : List (String × Json) :=
  captures.filterMap (fun kv =>
    if isResourceReturn kv.2 then
      if kv.2.rstate = RState.resolved then some (kv.1, kv.2.resolvedPayload) else none
    else some (kv.1, if kv.2.isSig then kv.2.sigValue else kv.2.asIs))

/-- The entries the first loop defers, in capture order. -/
def pendingEntries (captures : List (String × CapVal)) : List (String × CapVal) :=
  captures.filter (fun kv => isUnresolvedResource kv.2)

/-! ### Part 3 — the transformer (`vite-plugin-inline-task.ts`) -/

/-- The fragment of the TypeScript AST the transformer manipulates, as the
parser (an external collaborator) hands it over: one `Node` type, kinds
distinguished by constructor, positions (`getStart` with the source file,
i.e. past leading trivia) attached where the transformer reads them. -/
inductive Node where
  | ident (name : String)
  | lit
  | call (pos : Nat) (callee : Node) (args : List Node)
  | propAccess (obj : Node) (prop : Node)
  | objLit (props : List Node)
  | propAssign (nm : Node) (value : Node)
  | shorthandProp (nm : Node)
  | paren (e : Node)
  | binExpr (lhs : Node) (rhs : Node)
  | arrowFn (pos : Nat) (params : List Node) (body : Node)
  | fnExpr (pos : Nat) (nm : Option String) (params : List Node) (body : Node)
  | jsxFragment (children : List Node)
  | jsxElem (children : List Node)
  | param (nm : Node)
  | objPattern (elems : List Node)
  | arrPattern (elems : List Node)
  | omitted
  | bindingElem (propName : Option Node) (nm : Node)
  | varDecl (nm : Node) (vinit : Option Node)
  | varDeclList (decls : List Node)
  | exprStmt (pos : Nat) (e : Node)
  | varStmt (pos : Nat) (declList : Node)
  | fnDecl (pos : Nat) (nm : Option String) (params : List Node) (body : Option Node)
  | retStmt (pos : Nat) (e : Option Node)
  | block (pos : Nat) (stmts : List Node)
  | ifStmt (pos : Nat) (cond : Node) (thenPart : Node) (elsePart : Option Node)
  | forStmt (pos : Nat) (initPart : Option Node) (cond : Option Node) (incr : Option Node)
      (body : Node)
  | forOfStmt (pos : Nat) (initPart : Node) (iterated : Node) (body : Node)
  | forInStmt (pos : Nat) (initPart : Node) (iterated : Node) (body : Node)
  | tryStmt (pos : Nat) (tryBlock : Node) (catchPart : Option Node) (finallyPart : Option Node)
  | catchClause (decl : Option Node) (body : Node)

/-- The syntactic relation of an identifier to its parent node — exactly
the contexts `isVariableReference` distinguishes by probing `node.parent`.
`shorthandPropName` (the name of a `ShorthandPropertyAssignment`) and
`bindingElemName` (the `name` of a `BindingElement`) are listed because
they occur, although no test of the source function matches them. -/
inductive ParentCtx where
  | propAccessName
  | varDeclName
  | fnDeclName
  | classDeclName
  | paramName
  | propAssignName
  | methodDeclName
  | propSigName
  | importSpec
  | exportSpec
  | labeledLabel
  | breakLabel
  | continueLabel
  | bindingPropName
  | typePosition
  | shorthandPropName
  | bindingElemName
  | other
  deriving DecidableEq

/-- `isVariableReference` (plugin source lines 453-478): `true` iff the
identifier is used as a value reference.  Each `false` case corresponds to
one `if` of the source, in order; contexts without a matching test fall
through to the final `return true`. -/
def isVariableReference : ParentCtx → Bool
  | .propAccessName => false
  | .varDeclName => false
  | .fnDeclName => false
  | .classDeclName => false
  | .paramName => false
  | .propAssignName => false
  | .methodDeclName => false
  | .propSigName => false
  | .importSpec => false
  | .exportSpec => false
  | .labeledLabel => false
  | .breakLabel => false
  | .continueLabel => false
  | .bindingPropName => false
  | .typePosition => false
  | _ => true

mutual
/-- `collectBindingNames` (plugin lines 311-325): names of a binding
pattern, appended to the accumulator. -/
def collectBindingNames : Node → List String → List String
  | .ident nm, out => out ++ [nm]
  | .objPattern els, out => collectBindingElems els out
  | .arrPattern els, out => collectBindingElems els out
  | _, out => out

def collectBindingElems : List Node → List String → List String
  | [], out => out
  | .bindingElem _ nm :: rest, out => collectBindingElems rest (collectBindingNames nm out)
  | _ :: rest, out => collectBindingElems rest out
end

/-- Parameter names of a parameter list (`collectBindingNames(param.name)`
for each parameter, in order). -/
def paramNames : List Node → List String
  | [] => []
  | .param nm :: rest => collectBindingNames nm [] ++ paramNames rest
  | _ :: rest => paramNames rest

/-- Names declared by the declarations of a `VariableDeclarationList`. -/
def declNamesL : List Node → List String
  | [] => []
  | .varDecl nm _ :: rest => collectBindingNames nm [] ++ declNamesL rest
  | _ :: rest => declNamesL rest

/-- Names declared by a node when it is a `VariableDeclarationList`
(mirrors the `ts.isVariableDeclarationList` guard), else none. -/
def declListNames : Node → List String
  | .varDeclList ds => declNamesL ds
  | _ => []

/-- Parameters of a function-like node. -/
def fnLikeParams : Node → List Node
  | .arrowFn _ ps _ => ps
  | .fnExpr _ _ ps _ => ps
  | .fnDecl _ _ ps _ => ps
  | _ => []

/-- Body of a function-like node. -/
def fnLikeBody : Node → Option Node
  | .arrowFn _ _ b => some b
  | .fnExpr _ _ _ b => some b
  | .fnDecl _ _ _ b => b
  | _ => none

/-- `getStart(sourceFile)` of the nodes whose position the transformer
reads (statements, calls, function-likes). -/
def nodePos : Node → Nat
  | .call p _ _ => p
  | .arrowFn p _ _ => p
  | .fnExpr p _ _ _ => p
  | .exprStmt p _ => p
  | .varStmt p _ => p
  | .fnDecl p _ _ _ => p
  | .retStmt p _ => p
  | .block p _ => p
  | .ifStmt p _ _ _ => p
  | .forStmt p _ _ _ _ => p
  | .forOfStmt p _ _ _ => p
  | .forInStmt p _ _ _ => p
  | .tryStmt p _ _ _ => p
  | _ => 0

/-- Names a top-level statement of the enclosing body contributes to the
capturable scope: variable statements and named function declarations. -/
def stmtDeclNames : Node → List String
  | .varStmt _ dl => declListNames dl
  | .fnDecl _ (some nm) _ _ => [nm]
  | _ => []

/-- The statement loop of `collectScopeDeclarations`: stop (`break`) at the
first statement whose start is not before `beforePos`. -/
def collectStmtDecls : List Node → Nat → List String
  | [], _ => []
  | s :: rest, beforePos =>
    if beforePos ≤ nodePos s then []
    else stmtDeclNames s ++ collectStmtDecls rest beforePos

/-- `collectScopeDeclarations` (plugin lines 279-308): the enclosing
function's parameters plus every name declared by a top-level variable
statement or function declaration that starts before `beforePos`. -/
def collectScopeDeclarations (scope : Node) (beforePos : Nat) : List String :=
  let names := paramNames (fnLikeParams scope)
  match fnLikeBody scope with
  | some (.block _ stmts) => names ++ collectStmtDecls stmts beforePos
  | _ => names

/-- `scopeHas` (plugin lines 336-342) on the scope chain: the innermost
scope's names are `cur`, the ancestors' name sets are `outer`, innermost
first.  Additions always target the innermost scope, so the ancestor part
is read-only during a walk. -/
def chainHas (name : String) (cur : List String) (outer : List (List String)) : Bool :=
  cur.contains name || outer.any (fun s => s.contains name)

/-- Walk state of the free-variable walk: the innermost scope's
(mutable) name set and the emitted reference list. -/
structure FVState where
  cur : List String
  refs : List (ParentCtx × String)

mutual
/-- The recursive `walk` of `findFreeVarRefs` (plugin lines 362-436).
`capN` is the capture-eligible name set, `outer` the ancestor scope chain,
`ctx` the relation of `node` to its parent (what the source reads from
`node.parent`).  Scope-creating constructs build a child scope and walk
their children in it; variable statements extend the current scope; an
identifier in a value-reference position that is not bound in the chain
but is capture-eligible is emitted.  All other constructs just walk their
children (`ts.forEachChild`) in order. -/
def walkFree (capN : List String) (outer : List (List String)) (ctx : ParentCtx)
    (node : Node) (st : FVState) : FVState :=
  match node with
  | .arrowFn _ params body =>
    let res :=
      match body with
      | .block _ ss => walkFreeL capN (st.cur :: outer) .other ss ⟨paramNames params, st.refs⟩
      | e => walkChildren capN (st.cur :: outer) e ⟨paramNames params, st.refs⟩
    ⟨st.cur, res.refs⟩
  | .fnExpr _ _ params body =>
    let res :=
      match body with
      | .block _ ss => walkFreeL capN (st.cur :: outer) .other ss ⟨paramNames params, st.refs⟩
      | e => walkChildren capN (st.cur :: outer) e ⟨paramNames params, st.refs⟩
    ⟨st.cur, res.refs⟩
  | .fnDecl _ nm params body =>
    let cur1 := match nm with | some n => st.cur ++ [n] | none => st.cur
    let res :=
      match body with
      | some (.block _ ss) => walkFreeL capN (cur1 :: outer) .other ss ⟨paramNames params, st.refs⟩
      | some e => walkChildren capN (cur1 :: outer) e ⟨paramNames params, st.refs⟩
      | none => (⟨paramNames params, st.refs⟩ : FVState)
    ⟨cur1, res.refs⟩
  | .forStmt _ initPart cond incr body =>
    let loopNames := match initPart with | some dl => declListNames dl | none => []
    let s0 : FVState := ⟨loopNames, st.refs⟩
    let s1 := match initPart with
      | some i => walkFree capN (st.cur :: outer) .other i s0
      | none => s0
    let s2 := match cond with
      | some c => walkFree capN (st.cur :: outer) .other c s1
      | none => s1
    let s3 := match incr with
      | some i => walkFree capN (st.cur :: outer) .other i s2
      | none => s2
    let s4 := walkFree capN (st.cur :: outer) .other body s3
    ⟨st.cur, s4.refs⟩
  | .forOfStmt _ initPart iterated body =>
    let s1 := walkFree capN (st.cur :: outer) .other initPart ⟨declListNames initPart, st.refs⟩
    let s2 := walkFree capN (st.cur :: outer) .other iterated s1
    let s3 := walkFree capN (st.cur :: outer) .other body s2
    ⟨st.cur, s3.refs⟩
  | .forInStmt _ initPart iterated body =>
    let s1 := walkFree capN (st.cur :: outer) .other initPart ⟨declListNames initPart, st.refs⟩
    let s2 := walkFree capN (st.cur :: outer) .other iterated s1
    let s3 := walkFree capN (st.cur :: outer) .other body s2
    ⟨st.cur, s3.refs⟩
  | .block _ ss =>
    let r := walkFreeL capN (st.cur :: outer) .other ss ⟨[], st.refs⟩
    ⟨st.cur, r.refs⟩
  | .catchClause decl body =>
    let catchNames := match decl with
      | some (.varDecl nm _) => collectBindingNames nm []
      | _ => []
    let s0 : FVState := ⟨catchNames, st.refs⟩
    let s1 := match decl with
      | some d => walkFree capN (st.cur :: outer) .other d s0
      | none => s0
    let s2 := walkFree capN (st.cur :: outer) .other body s1
    ⟨st.cur, s2.refs⟩
  | .varStmt _ dl =>
    walkFree capN outer .other dl ⟨st.cur ++ declListNames dl, st.refs⟩
  | .ident nm =>
    if isVariableReference ctx && !(chainHas nm st.cur outer) && capN.contains nm then
      ⟨st.cur, st.refs ++ [(ctx, nm)]⟩
    else st
  | .lit => st
  | .omitted => st
  | .call _ callee args =>
    walkFreeL capN outer .other args (walkFree capN outer .other callee st)
  | .propAccess obj prop =>
    walkFree capN outer .propAccessName prop (walkFree capN outer .other obj st)
  | .objLit props => walkFreeL capN outer .other props st
  | .propAssign nm value =>
    walkFree capN outer .other value (walkFree capN outer .propAssignName nm st)
  | .shorthandProp nm => walkFree capN outer .shorthandPropName nm st
  | .paren e => walkFree capN outer .other e st
  | .binExpr lhs rhs =>
    walkFree capN outer .other rhs (walkFree capN outer .other lhs st)
  | .jsxFragment cs => walkFreeL capN outer .other cs st
  | .jsxElem cs => walkFreeL capN outer .other cs st
  | .param nm => walkFree capN outer .paramName nm st
  | .objPattern els => walkFreeL capN outer .other els st
  | .arrPattern els => walkFreeL capN outer .other els st
  | .bindingElem propName nm =>
    let s1 := match propName with
      | some p => walkFree capN outer .bindingPropName p st
      | none => st
    walkFree capN outer .bindingElemName nm s1
  | .varDecl nm vinit =>
    let s1 := walkFree capN outer .varDeclName nm st
    match vinit with
    | some i => walkFree capN outer .other i s1
    | none => s1
  | .varDeclList ds => walkFreeL capN outer .other ds st
  | .exprStmt _ e => walkFree capN outer .other e st
  | .retStmt _ e =>
    match e with
    | some x => walkFree capN outer .other x st
    | none => st
  | .ifStmt _ cond thenPart elsePart =>
    let s1 := walkFree capN outer .other cond st
    let s2 := walkFree capN outer .other thenPart s1
    match elsePart with
    | some e => walkFree capN outer .other e s2
    | none => s2
  | .tryStmt _ tryBlock catchPart finallyPart =>
    let s1 := walkFree capN outer .other tryBlock st
    let s2 := match catchPart with
      | some c => walkFree capN outer .other c s1
      | none => s1
    match finallyPart with
    | some f => walkFree capN outer .other f s2
    | none => s2

/-- Walking a child list in order with a fixed parent context. -/
def walkFreeL (capN : List String) (outer : List (List String)) (ctx : ParentCtx)
    (nodes : List Node) (st : FVState) : FVState :=
  match nodes with
  | [] => st
  | n :: rest => walkFreeL capN outer ctx rest (walkFree capN outer ctx n st)

/-- `ts.forEachChild(e, walk)` for an expression `e` — used for the body of
a nested function whose body is an expression: the source walks the
children of that expression (not the expression itself).  Statement kinds
never occur as an expression body. -/
def walkChildren (capN : List String) (outer : List (List String)) (node : Node)
    (st : FVState) : FVState :=
  match node with
  | .call _ callee args =>
    walkFreeL capN outer .other args (walkFree capN outer .other callee st)
  | .propAccess obj prop =>
    walkFree capN outer .propAccessName prop (walkFree capN outer .other obj st)
  | .objLit props => walkFreeL capN outer .other props st
  | .propAssign nm value =>
    walkFree capN outer .other value (walkFree capN outer .propAssignName nm st)
  | .shorthandProp nm => walkFree capN outer .shorthandPropName nm st
  | .paren e => walkFree capN outer .other e st
  | .binExpr lhs rhs =>
    walkFree capN outer .other rhs (walkFree capN outer .other lhs st)
  | .arrowFn _ params body =>
    walkFree capN outer .other body (walkFreeL capN outer .other params st)
  | .fnExpr _ _ params body =>
    walkFree capN outer .other body (walkFreeL capN outer .other params st)
  | .jsxFragment cs => walkFreeL capN outer .other cs st
  | .jsxElem cs => walkFreeL capN outer .other cs st
  | _ => st
end

/-- `findFreeVarRefs` (plugin lines 350-447): root scope from the
callback's own parameters; a block body walks the block's children, an
expression body walks the expression node itself. -/
def findFreeVarRefs (fn : Node) (capN : List String) : List (ParentCtx × String) :=
  match fn with
  | .arrowFn _ params body =>
    (match body with
     | .block _ ss => walkFreeL capN [] .other ss ⟨paramNames params, []⟩
     | e => walkFree capN [] .other e ⟨paramNames params, []⟩).refs
  | .fnExpr _ _ params body =>
    (match body with
     | .block _ ss => walkFreeL capN [] .other ss ⟨paramNames params, []⟩
     | e => walkFree capN [] .other e ⟨paramNames params, []⟩).refs
  | _ => []

/-- The de-duplication loop of `applyAutoCapture` (lines 141-148): keep the
first occurrence of each name.  The source's `seen` set always has the
same members as the accumulated list, so one accumulator suffices. -/
def dedupFirst (l : List String) : List String :=
  l.foldl (fun acc x => if acc.contains x then acc else acc ++ [x]) []

/-- The edits `applyAutoCapture` pushes into the text buffer, in source
order: the scope-parameter write (overwrite of a non-empty parameter span
or insertion into empty parens), one `__scope.<name>` overwrite per
selected reference, and the trailing `, { ... }` captures literal. -/
structure CaptureEdits where
  hadParams : Bool
  scopeParam : String
  rewrites : List (ParentCtx × String)
  captureNames : List String
  deriving DecidableEq

/-- Specification-side de-duplication: the names in first-occurrence
order, written by direct recursion. -/
def firstOccurrences : List String → List String
  | [] => []
  | x :: t => x :: firstOccurrences (t.filter (fun y => y ≠ x))
  termination_by l => l.length
  decreasing_by
    simp only [List.length_cons]
    exact Nat.lt_succ_of_le (List.length_filter_le _ _)

/-- `applyAutoCapture` (plugin lines 120-168): compute the capturable
names, find the free references, and return the edits; `none` when the
scope is empty or no reference was found (the source returns without
touching the buffer). -/
def applyAutoCapture (fn : Node) (enclosing : Node) (callPos : Nat) : Option CaptureEdits :=
  let scopeNames := collectScopeDeclarations enclosing callPos
  if scopeNames.length = 0 then none
  else
    let refs := findFreeVarRefs fn scopeNames
    if refs.length = 0 then none
    else some
      { hadParams := (fnLikeParams fn).length != 0
      , scopeParam := "__scope"
      , rewrites := refs
      , captureNames := dedupFirst (refs.map (fun r => r.2)) }

/-- `isArrowFunction(fn) || isFunctionExpression(fn)`. -/
def isFnLikeExpr : Node → Bool
  | .arrowFn _ _ _ => true
  | .fnExpr _ _ _ _ => true
  | _ => false

/-- `isUseInlineTaskCall` (plugin lines 106-114). -/
def isUseInlineTaskCall : Node → Bool
  | .call _ callee args =>
    (match callee with | .ident nm => nm == "useInlineTask" | _ => false)
    && args.length != 0
    && (match args with | a :: _ => isFnLikeExpr a | [] => false)
  | _ => false

/-- One processed inline-task call: where it was, its enclosing function
(node and `getStart`), the auto-capture edits (if any), and the index of
the fresh `__it_<n>` binding when the call was an expression statement. -/
structure CallRecord where
  callPos : Nat
  enclosingFn : Node
  enclosingPos : Nat
  capture : Option CaptureEdits
  binding : Option Nat

/-- Number of fresh bindings a record list allocates — the value of the
driver's `counter` after emitting these records. -/
def countB (rs : List CallRecord) : Nat :=
  (rs.filter (fun r => r.binding.isSome)).length

/-- The fresh binding name template (the source's `__it_` dollar-brace
`counter++`). -/
def itName (i : Nat) : String := "__it_" ++ toString i

/-- Processing one matched call (`visit`, plugin lines 50-80): auto-capture
runs only for single-argument calls whose callable has no parameters; an
expression-statement parent allocates the next fresh binding.  `k` is the
current counter, i.e. the number of bindings allocated so far. -/
def processCall (enc : Node) (pe : Bool) (callPos : Nat) (fnArg : Node)
    (args : List Node) (k : Nat) : CallRecord :=
  { callPos := callPos
  , enclosingFn := enc
  , enclosingPos := nodePos enc
  , capture :=
      if args.length = 1 ∧ (fnLikeParams fnArg).length = 0 then
        applyAutoCapture fnArg enc callPos
      else none
  , binding := if pe then some k else none }

mutual
/-- The driver's `visit`, written as the list of records it appends.
`enc` is the nearest function-like ancestor (the result of
`findEnclosingFunction`), `pe` whether the node is the direct expression
of an `ExpressionStatement`, `k` the counter on entry (the counter is
threaded as `k` plus the bindings of the records generated so far).  A
matched call with an enclosing function contributes a record and its
children are still visited; a matched call without one contributes
nothing but its children are visited; everything else just recurses. -/
def visit (enc : Option Node) (pe : Bool) (node : Node) (k : Nat) : List CallRecord :=
  match node with
  | .call p callee args =>
    let hit :=
      if isUseInlineTaskCall (.call p callee args) then
        match enc, args with
        | some e, a :: _ => [processCall e pe p a args k]
        | _, _ => []
      else []
    let t1 := visit enc false callee (k + countB hit)
    hit ++ t1 ++ visitL enc args (k + countB hit + countB t1)
  | .arrowFn p ps b =>
    let t1 := visitL (some (.arrowFn p ps b)) ps k
    t1 ++ visit (some (.arrowFn p ps b)) false b (k + countB t1)
  | .fnExpr p nm ps b =>
    let t1 := visitL (some (.fnExpr p nm ps b)) ps k
    t1 ++ visit (some (.fnExpr p nm ps b)) false b (k + countB t1)
  | .fnDecl p nm ps b =>
    let t1 := visitL (some (.fnDecl p nm ps b)) ps k
    t1 ++ (match b with
           | some bb => visit (some (.fnDecl p nm ps b)) false bb (k + countB t1)
           | none => [])
  | .exprStmt _ e => visit enc true e k
  | .ident _ => []
  | .lit => []
  | .omitted => []
  | .propAccess obj prop =>
    let t1 := visit enc false obj k
    t1 ++ visit enc false prop (k + countB t1)
  | .objLit props => visitL enc props k
  | .propAssign nm value =>
    let t1 := visit enc false nm k
    t1 ++ visit enc false value (k + countB t1)
  | .shorthandProp nm => visit enc false nm k
  | .paren e => visit enc false e k
  | .binExpr lhs rhs =>
    let t1 := visit enc false lhs k
    t1 ++ visit enc false rhs (k + countB t1)
  | .jsxFragment cs => visitL enc cs k
  | .jsxElem cs => visitL enc cs k
  | .param nm => visit enc false nm k
  | .objPattern els => visitL enc els k
  | .arrPattern els => visitL enc els k
  | .bindingElem propName nm =>
    let t1 := match propName with | some p => visit enc false p k | none => []
    t1 ++ visit enc false nm (k + countB t1)
  | .varDecl nm vinit =>
    let t1 := visit enc false nm k
    t1 ++ (match vinit with
           | some i => visit enc false i (k + countB t1)
           | none => [])
  | .varDeclList ds => visitL enc ds k
  | .varStmt _ dl => visit enc false dl k
  | .retStmt _ e =>
    match e with
    | some x => visit enc false x k
    | none => []
  | .block _ ss => visitL enc ss k
  | .ifStmt _ cond thenPart elsePart =>
    let t1 := visit enc false cond k
    let t2 := visit enc false thenPart (k + countB t1)
    t1 ++ t2 ++ (match elsePart with
                 | some e => visit enc false e (k + countB t1 + countB t2)
                 | none => [])
  | .forStmt _ initPart cond incr body =>
    let t1 := match initPart with | some i => visit enc false i k | none => []
    let t2 := match cond with | some c => visit enc false c (k + countB t1) | none => []
    let t3 := match incr with
      | some i => visit enc false i (k + countB t1 + countB t2)
      | none => []
    t1 ++ t2 ++ t3 ++ visit enc false body (k + countB t1 + countB t2 + countB t3)
  | .forOfStmt _ initPart iterated body =>
    let t1 := visit enc false initPart k
    let t2 := visit enc false iterated (k + countB t1)
    t1 ++ t2 ++ visit enc false body (k + countB t1 + countB t2)
  | .forInStmt _ initPart iterated body =>
    let t1 := visit enc false initPart k
    let t2 := visit enc false iterated (k + countB t1)
    t1 ++ t2 ++ visit enc false body (k + countB t1 + countB t2)
  | .tryStmt _ tryBlock catchPart finallyPart =>
    let t1 := visit enc false tryBlock k
    let t2 := match catchPart with
      | some c => visit enc false c (k + countB t1)
      | none => []
    t1 ++ t2 ++ (match finallyPart with
                 | some f => visit enc false f (k + countB t1 + countB t2)
                 | none => [])
  | .catchClause decl body =>
    let t1 := match decl with | some d => visit enc false d k | none => []
    t1 ++ visit enc false body (k + countB t1)

/-- Visiting a child list in order, threading the counter. -/
def visitL (enc : Option Node) (nodes : List Node) (k : Nat) : List CallRecord :=
  match nodes with
  | [] => []
  | n :: rest =>
    let t := visit enc false n k
    t ++ visitL enc rest (k + countB t)
end

/-- The whole `ts.forEachChild(sourceFile, visit)` pass: no enclosing
function, counter starting at 0. -/
def runVisit (ast : List Node) : List CallRecord := visitL none ast 0

/-- One entry of the driver's `groups` map.  The source keys the map by the
function node object; nodes of one parse are identified by their start
position, so the key is modelled by `nodePos`. -/
structure GroupEntry where
  fnPos : Nat
  fnNode : Node
  varNames : List String

/-- `groups.get(enclosing).push(varName)` with map-insertion order. -/
def addToGroup : List GroupEntry → Node → String → List GroupEntry
  | [], e, v => [⟨nodePos e, e, [v]⟩]
  | g :: gs, e, v =>
    if g.fnPos = nodePos e then ⟨g.fnPos, g.fnNode, g.varNames ++ [v]⟩ :: gs
    else g :: addToGroup gs e v

/-- The `groups` map accumulated over the visit, reconstructed from the
records in order. -/
def groupsOf (rs : List CallRecord) : List GroupEntry :=
  rs.foldl (fun gs r =>
    match r.binding with
    | some i => addToGroup gs r.enclosingFn (itName i)
    | none => gs) []

/-- One splice of `injectAroundExpr`: either an insertion before an
existing fragment's closing punctuation, or a wrap of the expression in a
new fragment; `injection` is the inserted child-slot text. -/
structure InjectAction where
  targetIsFragment : Bool
  injection : String
  deriving DecidableEq

/-- The injection text `{__it_0}{__it_1}...` of `injectIntoReturn`
(the source's `varNames.map((v) => ...).join("")`). -/
def injectionString : List String → String
  | [] => ""
  | v :: rest => "\x7b" ++ v ++ "\x7d" ++ injectionString rest

/-- Unwrapping `ParenthesizedExpression`s (plugin lines 201-204). -/
def stripParens : Node → Node
  | .paren e => stripParens e
  | e => e

/-- `injectAroundExpr` (plugin lines 210-225). -/
def injectAroundExpr (e : Node) (inj : String) : InjectAction :=
  match e with
  | .jsxFragment _ => ⟨true, inj⟩
  | _ => ⟨false, inj⟩

mutual
/-- The walk of `findReturnStatements` (plugin lines 228-251): collect
return statements, do not enter nested function scopes, recurse into all
other children. -/
def findRets : Node → List Node
  | .arrowFn _ _ _ => []
  | .fnExpr _ _ _ _ => []
  | .fnDecl _ _ _ _ => []
  | .retStmt p e =>
    .retStmt p e :: (match e with | some x => findRets x | none => [])
  | .ident _ => []
  | .lit => []
  | .omitted => []
  | .call _ callee args => findRets callee ++ findRetsL args
  | .propAccess obj prop => findRets obj ++ findRets prop
  | .objLit props => findRetsL props
  | .propAssign nm value => findRets nm ++ findRets value
  | .shorthandProp nm => findRets nm
  | .paren e => findRets e
  | .binExpr lhs rhs => findRets lhs ++ findRets rhs
  | .jsxFragment cs => findRetsL cs
  | .jsxElem cs => findRetsL cs
  | .param nm => findRets nm
  | .objPattern els => findRetsL els
  | .arrPattern els => findRetsL els
  | .bindingElem propName nm =>
    (match propName with | some p => findRets p | none => []) ++ findRets nm
  | .varDecl nm vinit =>
    findRets nm ++ (match vinit with | some i => findRets i | none => [])
  | .varDeclList ds => findRetsL ds
  | .exprStmt _ e => findRets e
  | .varStmt _ dl => findRets dl
  | .block _ ss => findRetsL ss
  | .ifStmt _ cond thenPart elsePart =>
    findRets cond ++ findRets thenPart ++
      (match elsePart with | some e => findRets e | none => [])
  | .forStmt _ initPart cond incr body =>
    (match initPart with | some i => findRets i | none => []) ++
    (match cond with | some c => findRets c | none => []) ++
    (match incr with | some i => findRets i | none => []) ++ findRets body
  | .forOfStmt _ initPart iterated body =>
    findRets initPart ++ findRets iterated ++ findRets body
  | .forInStmt _ initPart iterated body =>
    findRets initPart ++ findRets iterated ++ findRets body
  | .tryStmt _ tryBlock catchPart finallyPart =>
    findRets tryBlock ++
    (match catchPart with | some c => findRets c | none => []) ++
    (match finallyPart with | some f => findRets f | none => [])
  | .catchClause decl body =>
    (match decl with | some d => findRets d | none => []) ++ findRets body

def findRetsL : List Node → List Node
  | [] => []
  | n :: rest => findRets n ++ findRetsL rest
end

/-- The return expressions targeted in a block body: for each collected
return statement that has an expression, the expression with parentheses
stripped. -/
def retTargets (stmts : List Node) : List Node :=
  (findRetsL stmts).filterMap (fun r =>
    match r with
    | .retStmt _ (some e) => some (stripParens e)
    | _ => none)

/-- `injectIntoReturn` (plugin lines 182-208): an expression-bodied arrow
splices around its body expression (without paren stripping); a block body
splices around each return expression. -/
def injectIntoReturn (fn : Node) (varNames : List String) : List InjectAction :=
  let inj := injectionString varNames
  match fn with
  | .arrowFn _ _ body =>
    (match body with
     | .block _ ss => (retTargets ss).map (fun e => injectAroundExpr e inj)
     | e => [injectAroundExpr e inj])
  | .fnExpr _ _ _ body =>
    (match body with
     | .block _ ss => (retTargets ss).map (fun e => injectAroundExpr e inj)
     | _ => [])
  | .fnDecl _ _ _ body =>
    (match body with
     | some (.block _ ss) => (retTargets ss).map (fun e => injectAroundExpr e inj)
     | _ => [])
  | _ => []

/-- The return expressions of a function, as the injection step sees them
(the single body expression of an expression-bodied arrow, or each return
expression of the block body). -/
def returnExprsOf : Node → List Node
  | .arrowFn _ _ body =>
    (match body with
     | .block _ ss => retTargets ss
     | e => [e])
  | .fnExpr _ _ _ body =>
    (match body with
     | .block _ ss => retTargets ss
     | _ => [])
  | .fnDecl _ _ _ body =>
    (match body with
     | some (.block _ ss) => retTargets ss
     | _ => [])
  | _ => []

/-- The value the bundler receives when the transformer produces output:
the records of the processed calls (standing for the buffered edits), the
per-function injection actions, and the `hires: true` source-map flag. -/
structure TransformOutput where
  records : List CallRecord
  injections : List (Nat × List InjectAction)
  hiresMap : Bool

/-- `transform(code, id)` (plugin lines 25-94).  The parse itself is the
external parser's work; `ast` is the statement list it returns for `code`.
`transformed` is set exactly when a matched call with an enclosing
function is processed, i.e. exactly when a record exists. -/
def transform (id : String) (code : String) (ast : List Node) : Option TransformOutput :=
  if !(strEndsWith (".jsx") id || strEndsWith (".tsx") id) then none
  else if !(strHasSub ("useInlineTask") code) then none
  else if strHasSub ("node_modules") id then none
  else
    let records := runVisit ast
    let groups := groupsOf records
    let injections := groups.map (fun g => (g.fnPos, injectIntoReturn g.fnNode g.varNames))
    if records.length = 0 then none
    else some ⟨records, injections, true⟩

/-- Projection of a record to position-and-edit data (the parts with
decidable equality), for concrete evaluations. -/
def recordSummary (r : CallRecord) : Nat × Nat × Option CaptureEdits × Option Nat :=
  (r.callPos, r.enclosingPos, r.capture, r.binding)

/-- Projection of a transform output for concrete evaluations. -/
def outputSummary (o : TransformOutput) :
    List (Nat × Nat × Option CaptureEdits × Option Nat) × List (Nat × List InjectAction) × Bool :=
  (o.records.map recordSummary, o.injections, o.hiresMap)

/-- Extension relation of one walk step: the walk only grows the current
scope, only appends references, and every appended reference is
capture-eligible and was not bound anywhere in the scope chain on entry. -/
def FVExt (capN : List String) (outer : List (List String)) (st st' : FVState) : Prop :=
  st.cur ⊆ st'.cur
  ∧ ∃ t, st'.refs = st.refs ++ t
      ∧ ∀ pr ∈ t, pr.2 ∈ capN ∧ chainHas pr.2 st.cur outer = false

/-! ### Concrete inputs used by witnesses and counterexamples -/

/-- A captures mapping carrying a script-closing payload (for the C1 witness). -/
def capsEscW : List (String × CapVal) :=
  [("s", ⟨false, RState.pending, Json.jnull, Json.jnull, false, Json.jnull,
    Json.jstr "</script><!--"⟩)]

/-- C6 counterexample: a pending resource (awaited payload 1) listed before
a plain value 2. -/
def capsPendingFirst : List (String × CapVal) :=
  [("a", ⟨true, RState.pending, Json.jnull, Json.jnum 1, false, Json.jnull, Json.jnull⟩),
   ("b", ⟨false, RState.pending, Json.jnull, Json.jnull, false, Json.jnull, Json.jnum 2⟩)]

/-- The same mapping with the pending resource already resolved to its
awaited payload (the hypothetical the claim compares against). -/
def capsResolvedUpfront : List (String × CapVal) :=
  [("a", ⟨true, RState.resolved, Json.jnum 1, Json.jnum 1, false, Json.jnull, Json.jnull⟩),
   ("b", ⟨false, RState.pending, Json.jnull, Json.jnull, false, Json.jnull, Json.jnum 2⟩)]

/-- C2 failing input, the callback: `() => { const o = { x }; }` —
the object literal uses the shorthand property `{ x }`. -/
def cbShorthand : Node :=
  .arrowFn 40 [] (.block 41 [
    .varStmt 42 (.varDeclList [.varDecl (.ident "o")
      (some (.objLit [.shorthandProp (.ident "x")]))])])

/-- C2 failing input, the component:
`function C() { const x = 1; useInlineTask(() => { const o = { x }; }); return <div/>; }`. -/
def compShorthand : Node :=
  .fnDecl 0 (some "C") [] (some (.block 1 [
    .varStmt 10 (.varDeclList [.varDecl (.ident "x") (some .lit)]),
    .exprStmt 30 (.call 30 (.ident "useInlineTask") [cbShorthand]),
    .retStmt 60 (some (.jsxElem []))]))

/-- C3 counterexample callback: `() => { { use(x); const x = 1; } }` — the
occurrence of `x` sits beneath the block that re-declares `x`, before
the declaration. -/
def cbShadowBefore : Node :=
  .arrowFn 40 [] (.block 41 [
    .block 42 [
      .exprStmt 43 (.call 44 (.ident "use") [.ident "x"]),
      .varStmt 45 (.varDeclList [.varDecl (.ident "x") (some .lit)])]])

/-- C9 counterexample callback: `() => { use(__scope); }`. -/
def cbScopeName : Node :=
  .arrowFn 40 [] (.block 41 [
    .exprStmt 42 (.call 43 (.ident "use") [.ident "__scope"])])

/-- C9 counterexample component: the user declared a variable literally
named `__scope` and the callback references it. -/
def compScopeName : Node :=
  .fnDecl 0 (some "C") [] (some (.block 1 [
    .varStmt 10 (.varDeclList [.varDecl (.ident "__scope") (some .lit)]),
    .exprStmt 30 (.call 30 (.ident "useInlineTask") [cbScopeName]),
    .retStmt 60 (some (.jsxElem []))]))

/-- A plain callback `() => { use(x); }` for witnesses. -/
def cbBasic : Node :=
  .arrowFn 40 [] (.block 41 [.exprStmt 42 (.call 43 (.ident "use") [.ident "x"])])

/-- A plain component for witnesses:
`function C() { const x = 1; useInlineTask(() => { use(x); }); return <div/>; }`. -/
def compBasic : Node :=
  .fnDecl 0 (some "C") [] (some (.block 1 [
    .varStmt 10 (.varDeclList [.varDecl (.ident "x") (some .lit)]),
    .exprStmt 30 (.call 30 (.ident "useInlineTask") [cbBasic]),
    .retStmt 60 (some (.jsxElem []))]))

/-- C8 counterexample component: `function C() { return useInlineTask(() => {}); }`
— the call matches and has an enclosing function, but produces no edit
(not an expression statement; empty capturable scope). -/
def compNoEdits : Node :=
  .fnDecl 0 (some "C") [] (some (.block 1 [
    .retStmt 10 (some (.call 17 (.ident "useInlineTask") [.arrowFn 25 [] (.block 26 [])]))]))

/-- Source text corresponding to `compNoEdits` (only its substring content
matters to the driver's gates). -/
def codeNoEdits : String := "function C() \x7b return useInlineTask(() => \x7b\x7d); \x7d"

/-- C10 input: a zero-argument `useInlineTask()` call, and a matching call
nested inside the arguments of a non-matching call `wrap(...)`. -/
def compNested : Node :=
  .fnDecl 0 (some "C") [] (some (.block 1 [
    .exprStmt 10 (.call 10 (.ident "useInlineTask") []),
    .exprStmt 20 (.call 20 (.ident "wrap")
      [.call 21 (.ident "useInlineTask") [.arrowFn 22 [] (.block 23 [])]]),
    .retStmt 60 (some (.jsxElem []))]))

/-! ### Theorems -/

theorem isPrefixOf_append_self (l r : List Char) : l.isPrefixOf (l ++ r) = true := by
  induction l with
  | nil => simp [List.isPrefixOf]
  | cons c t ih => simp [List.isPrefixOf, ih]

theorem isPrefixOf_trans {a b c : List Char} (h1 : a.isPrefixOf b = true)
    (h2 : b.isPrefixOf c = true) : a.isPrefixOf c = true := by
  induction a generalizing b c with
  | nil => simp [List.isPrefixOf]
  | cons x xs ih =>
    cases b with
    | nil => simp [List.isPrefixOf] at h1
    | cons y ys =>
      cases c with
      | nil => simp [List.isPrefixOf] at h2
      | cons z zs =>
        simp only [List.isPrefixOf, Bool.and_eq_true, beq_iff_eq] at h1 h2 ⊢
        exact ⟨h1.1.trans h2.1, ih h1.2 h2.2⟩

theorem hasSub_cons (q : List Char) (c : Char) (t : List Char) (h : hasSub q t = true) :
    hasSub q (c :: t) = true := by
  simp [hasSub, h]

theorem hasSub_unfold (q : List Char) (c : Char) (t : List Char) :
    hasSub q (c :: t) = (q.isPrefixOf (c :: t) || hasSub q t) := rfl

theorem hasSub_tail (q : List Char) (c : Char) (t : List Char)
    (h : hasSub q (c :: t) = false) : hasSub q t = false := by
  rw [hasSub_unfold] at h
  exact (Bool.or_eq_false_iff.mp h).2

theorem hasSub_head_false (q : List Char) (c : Char) (t : List Char)
    (h : hasSub q (c :: t) = false) : q.isPrefixOf (c :: t) = false := by
  rw [hasSub_unfold] at h
  exact (Bool.or_eq_false_iff.mp h).1

theorem hasSub_of_isPrefixOf (q s : List Char) (h : q.isPrefixOf s = true) :
    hasSub q s = true := by
  cases s with
  | nil =>
    cases q with
    | nil => rfl
    | cons a as => simp [List.isPrefixOf] at h
  | cons c t => simp [hasSub_unfold, h]

theorem hasSub_mono (q1 q2 s : List Char) (hq : q1.isPrefixOf q2 = true)
    (h : hasSub q2 s = true) : hasSub q1 s = true := by
  induction s with
  | nil =>
    cases q2 with
    | nil =>
      cases q1 with
      | nil => rfl
      | cons a as => simp [List.isPrefixOf] at hq
    | cons b bs => simp [hasSub, List.isEmpty] at h
  | cons c t ih =>
    rw [hasSub_unfold] at h ⊢
    rcases Bool.or_eq_true_iff.mp h with hp | ht
    · exact Bool.or_eq_true_iff.mpr (Or.inl (isPrefixOf_trans hq hp))
    · exact Bool.or_eq_true_iff.mpr (Or.inr (ih ht))

theorem escapeCloseTag_head (c : Char) (t : List Char) :
    (∃ r, escapeCloseTag (c :: t) = c :: r) ∨
    (c = '<' ∧ ∃ r, escapeCloseTag (c :: t) = '<' :: '\\' :: '/' :: r) := by
  cases t with
  | nil => exact Or.inl ⟨[], rfl⟩
  | cons c2 t2 =>
    by_cases h : c = '<' ∧ c2 = '/'
    · exact Or.inr ⟨h.1, escapeCloseTag t2, by rw [escapeCloseTag, if_pos h]⟩
    · exact Or.inl ⟨escapeCloseTag (c2 :: t2), by rw [escapeCloseTag, if_neg h]⟩

theorem noCloseTag_escapeCloseTag (s : List Char) :
    hasSub ['<', '/'] (escapeCloseTag s) = false := by
  induction s using escapeCloseTag.induct with
  | case1 => decide
  | case2 c =>
    show hasSub ['<', '/'] [c] = false
    rw [hasSub_unfold]
    simp [List.isPrefixOf, hasSub]
  | case3 c1 c2 rest hcond ih =>
    rw [escapeCloseTag, if_pos hcond]
    rw [hasSub_unfold, hasSub_unfold, hasSub_unfold]
    simp [List.isPrefixOf, ih]
  | case4 c1 c2 rest hcond ih =>
    rw [escapeCloseTag, if_neg hcond]
    rw [hasSub_unfold]
    have htail : hasSub ['<', '/'] (escapeCloseTag (c2 :: rest)) = false := ih
    rw [htail, Bool.or_false]
    rcases escapeCloseTag_head c2 rest with ⟨r, hr⟩ | ⟨hc2, r, hr⟩
    · rw [hr]
      by_cases hc1 : c1 = '<'
      · have hc2ne : ¬ c2 = '/' := fun hh => hcond ⟨hc1, hh⟩
        simp [List.isPrefixOf, hc1]
        intro h'
        exact absurd h'.symm hc2ne
      · simp [List.isPrefixOf]
        intro h'
        exact absurd h'.symm hc1
    · rw [hr]
      simp [List.isPrefixOf]

theorem escapeComment_keeps_pre (s : List Char) : ∀ w : List Char, '<' ∉ w →
    w.isPrefixOf (escapeComment s) = true → w.isPrefixOf s = true := by
  induction s using escapeComment.induct with
  | case1 =>
    intro w hw h
    rw [escapeComment] at h
    exact h
  | case2 c1 =>
    intro w hw h
    rw [escapeComment] at h
    exact h
  | case3 c1 c2 =>
    intro w hw h
    rw [escapeComment] at h
    exact h
  | case4 c1 c2 c3 =>
    intro w hw h
    rw [escapeComment] at h
    exact h
  | case5 c1 c2 c3 c4 rest hcond ih =>
    intro w hw h
    rw [escapeComment, if_pos hcond] at h
    cases w with
    | nil => simp [List.isPrefixOf]
    | cons a w' =>
      simp only [List.isPrefixOf, Bool.and_eq_true, beq_iff_eq] at h
      exact absurd (h.1 ▸ (List.mem_cons_self a w') : '<' ∈ a :: w') hw
  | case6 c1 c2 c3 c4 rest hcond ih =>
    intro w hw h
    rw [escapeComment, if_neg hcond] at h
    cases w with
    | nil => simp [List.isPrefixOf]
    | cons a w' =>
      simp only [List.isPrefixOf, Bool.and_eq_true, beq_iff_eq] at h ⊢
      have hw' : '<' ∉ w' := fun hx => hw (List.mem_cons_of_mem a hx)
      exact ⟨h.1, ih w' hw' h.2⟩

theorem noComment_escapeComment (s : List Char) :
    hasSub ['<', '!', '-', '-'] (escapeComment s) = false := by
  induction s using escapeComment.induct with
  | case1 => decide
  | case2 c1 =>
    rw [escapeComment, hasSub_unfold]
    simp [List.isPrefixOf, hasSub]
  | case3 c1 c2 =>
    rw [escapeComment, hasSub_unfold, hasSub_unfold]
    simp [List.isPrefixOf, hasSub]
  | case4 c1 c2 c3 =>
    rw [escapeComment, hasSub_unfold, hasSub_unfold, hasSub_unfold]
    simp [List.isPrefixOf, hasSub]
  | case5 c1 c2 c3 c4 rest hcond ih =>
    rw [escapeComment, if_pos hcond, hasSub_unfold, hasSub_unfold, hasSub_unfold,
      hasSub_unfold, hasSub_unfold]
    simp [List.isPrefixOf, ih]
  | case6 c1 c2 c3 c4 rest hcond ih =>
    rw [escapeComment, if_neg hcond, hasSub_unfold, ih, Bool.or_false]
    by_cases hc1 : c1 = '<'
    · subst hc1
      rcases hcp : (['!', '-', '-'] : List Char).isPrefixOf
          (escapeComment (c2 :: c3 :: c4 :: rest)) with hfalse | htrue
      · simp [List.isPrefixOf, hcp]
      · exfalso
        have hlift := escapeComment_keeps_pre (c2 :: c3 :: c4 :: rest) ['!', '-', '-']
          (by decide) hcp
        simp only [List.isPrefixOf, Bool.and_eq_true, beq_iff_eq] at hlift
        exact hcond ⟨rfl, hlift.1.symm, hlift.2.1.symm, hlift.2.2.1.symm⟩
    · simp [List.isPrefixOf]
      intro h'
      exact absurd h'.symm hc1

theorem noCloseTag_escapeComment (s : List Char) (h : hasSub ['<', '/'] s = false) :
    hasSub ['<', '/'] (escapeComment s) = false := by
  induction s using escapeComment.induct with
  | case1 => decide
  | case2 c1 =>
    rw [escapeComment]
    exact h
  | case3 c1 c2 =>
    rw [escapeComment]
    exact h
  | case4 c1 c2 c3 =>
    rw [escapeComment]
    exact h
  | case5 c1 c2 c3 c4 rest hcond ih =>
    have hrest : hasSub ['<', '/'] rest = false :=
      hasSub_tail _ _ _ (hasSub_tail _ _ _ (hasSub_tail _ _ _ (hasSub_tail _ _ _ h)))
    rw [escapeComment, if_pos hcond, hasSub_unfold, hasSub_unfold, hasSub_unfold,
      hasSub_unfold, hasSub_unfold]
    simp [List.isPrefixOf, ih hrest]
  | case6 c1 c2 c3 c4 rest hcond ih =>
    have htail : hasSub ['<', '/'] (c2 :: c3 :: c4 :: rest) = false := hasSub_tail _ _ _ h
    rw [escapeComment, if_neg hcond, hasSub_unfold, ih htail, Bool.or_false]
    by_cases hc1 : c1 = '<'
    · subst hc1
      rcases hcp : (['/'] : List Char).isPrefixOf
          (escapeComment (c2 :: c3 :: c4 :: rest)) with hfalse | htrue
      · simp [List.isPrefixOf, hcp]
      · exfalso
        have hlift := escapeComment_keeps_pre (c2 :: c3 :: c4 :: rest) ['/'] (by decide) hcp
        simp only [List.isPrefixOf, Bool.and_eq_true, beq_iff_eq] at hlift
        have hpre : (['<', '/'] : List Char).isPrefixOf ('<' :: c2 :: c3 :: c4 :: rest) = true := by
          simp [List.isPrefixOf, hlift.1.symm]
        rw [hasSub_head_false _ _ _ h] at hpre
        exact Bool.false_ne_true hpre
    · simp [List.isPrefixOf]
      intro h'
      exact absurd h'.symm hc1

/-- C1: for every callback source, every captures mapping (including none)
— covering both the synchronous and the asynchronous path — and every
ASCII letter `c`, the script content of the element `useInlineTask`
produces never contains `</` followed by `c` nor the sequence `<!--`,
whatever strings the captured values contain; the content is exactly the
assembled script source with every `</` replaced by `<\/` and every
`<!--` replaced by `<\!--` before the element is produced. -/
theorem useInlineTask_output_escaped (fnSource : String)
    (captures : Option (List (String × CapVal))) (c : Char) (_hc : c.isAlpha = true) :
    strHasSub (String.mk ['<', '/', c]) (contentOf (useInlineTask fnSource captures)) = false
    ∧ strHasSub ("<!--") (contentOf (useInlineTask fnSource captures)) = false
    ∧ contentOf (useInlineTask fnSource captures) =
        escapeInlineScript (assembledSource fnSource captures) := by
  have hcontent : contentOf (useInlineTask fnSource captures) =
      escapeInlineScript (assembledSource fnSource captures) := by
    cases captures with
    | none => rfl
    | some caps =>
      simp only [useInlineTask, assembledSource]
      split
      · rfl
      · rfl
  refine ⟨?_, ?_, hcontent⟩
  · rw [hcontent]
    show hasSub ['<', '/', c]
      (escapeComment (escapeCloseTag (assembledSource fnSource captures).toList)) = false
    by_contra hne
    have htrue : hasSub ['<', '/', c]
        (escapeComment (escapeCloseTag (assembledSource fnSource captures).toList)) = true := by
      revert hne
      cases hasSub ['<', '/', c] (escapeComment (escapeCloseTag
        (assembledSource fnSource captures).toList)) <;> simp
    have h2 : hasSub ['<', '/'] (escapeComment (escapeCloseTag
        (assembledSource fnSource captures).toList)) = true :=
      hasSub_mono _ _ _ (by simp [List.isPrefixOf]) htrue
    rw [noCloseTag_escapeComment _ (noCloseTag_escapeCloseTag _)] at h2
    exact Bool.false_ne_true h2
  · rw [hcontent]
    show hasSub ['<', '!', '-', '-']
      (escapeComment (escapeCloseTag (assembledSource fnSource captures).toList)) = false
    exact noComment_escapeComment _

/-- Witness for the C1 theorem: a concrete callback, a captures mapping
whose string carries both forbidden sequences, and the letter `a`. -/
theorem useInlineTask_output_escaped_witness :
    'a'.isAlpha = true
    ∧ (strHasSub (String.mk ['<', '/', 'a'])
        (contentOf (useInlineTask ("f") (some capsEscW))) = false
      ∧ strHasSub ("<!--") (contentOf (useInlineTask ("f") (some capsEscW))) = false
      ∧ contentOf (useInlineTask ("f") (some capsEscW)) =
          escapeInlineScript (assembledSource ("f") (some capsEscW))) :=
  ⟨by decide, useInlineTask_output_escaped ("f") (some capsEscW) 'a' (by decide)⟩

/-- C7: each capture entry resolves by case — a branded resource in state
`resolved` contributes `_resolved`; a branded resource in any other state
is deferred and its awaited contribution is the promise's payload; a
non-resource signal contributes its `value` attribute; any other value is
taken as-is — and resource detection strictly precedes signal detection:
for a branded value the step never consults `isSig` or the `value`
attribute. -/
theorem resolveStep_resolution (resolved : List (String × Json))
    (pending : List (String × CapVal)) (k : String) (v : CapVal) :
    (isResourceReturn v = true → v.rstate = RState.resolved →
      resolveStep (resolved, pending) (k, v) = (resolved ++ [(k, v.resolvedPayload)], pending))
    ∧ (isResourceReturn v = true → v.rstate ≠ RState.resolved →
      resolveStep (resolved, pending) (k, v) = (resolved, pending ++ [(k, v)])
      ∧ awaitOne (k, v) = (k, v.promisePayload))
    ∧ (isResourceReturn v = false → v.isSig = true →
      resolveStep (resolved, pending) (k, v) = (resolved ++ [(k, v.sigValue)], pending))
    ∧ (isResourceReturn v = false → v.isSig = false →
      resolveStep (resolved, pending) (k, v) = (resolved ++ [(k, v.asIs)], pending))
    ∧ (∀ b j, isResourceReturn v = true →
      (resolveStep (resolved, pending) (k, { v with isSig := b, sigValue := j })).1 =
        (resolveStep (resolved, pending) (k, v)).1
      ∧ awaitOne (k, { v with isSig := b, sigValue := j }) = awaitOne (k, v)) := by
  refine ⟨?_, ?_, ?_, ?_, ?_⟩
  · intro hr hs
    simp [resolveStep, hr, hs]
  · intro hr hs
    exact ⟨by simp [resolveStep, hr, hs], rfl⟩
  · intro hr hs
    simp [resolveStep, hr, hs]
  · intro hr hs
    simp [resolveStep, hr, hs]
  · intro b j hr
    obtain ⟨hb, rs, rp, pp, sg, sv, ai⟩ := v
    simp only [isResourceReturn] at hr
    subst hr
    refine ⟨?_, rfl⟩
    by_cases hs : rs = RState.resolved <;> simp [resolveStep, isResourceReturn, hs]

/-- Witness for the C7 theorem: a value carrying both the resource brand
and a `value` attribute, in state `resolved`. -/
theorem resolveStep_resolution_witness :
    isResourceReturn ⟨true, RState.resolved, Json.jnum 42, Json.jnum 42, true,
        Json.jstr "sig", Json.jnum 42⟩ = true
    ∧ resolveStep ([], []) ("d", ⟨true, RState.resolved, Json.jnum 42, Json.jnum 42, true,
        Json.jstr "sig", Json.jnum 42⟩) = ([("d", Json.jnum 42)], []) :=
  ⟨by decide,
    (resolveStep_resolution [] [] "d" ⟨true, RState.resolved, Json.jnum 42, Json.jnum 42,
      true, Json.jstr "sig", Json.jnum 42⟩).1 (by decide) (by decide)⟩

theorem resolveCaptures_spec (caps : List (String × CapVal)) :
    ∀ r p, caps.foldl resolveStep (r, p) = (r ++ nowEntries caps, p ++ pendingEntries caps) := by
  induction caps with
  | nil => intro r p; simp [nowEntries, pendingEntries]
  | cons kv t ih =>
    intro r p
    by_cases hr : isResourceReturn kv.2 = true
    · by_cases hs : kv.2.rstate = RState.resolved
      · have hstep : resolveStep (r, p) kv = (r ++ [(kv.1, kv.2.resolvedPayload)], p) := by
          simp [resolveStep, hr, hs]
        simp only [List.foldl_cons, hstep, ih]
        simp [nowEntries, pendingEntries, List.filterMap_cons, List.filter_cons, hr, hs,
          isUnresolvedResource]
      · have hstep : resolveStep (r, p) kv = (r, p ++ [kv]) := by
          simp [resolveStep, hr, hs]
        simp only [List.foldl_cons, hstep, ih]
        simp [nowEntries, pendingEntries, List.filterMap_cons, List.filter_cons, hr, hs,
          isUnresolvedResource]
    · have hr' : isResourceReturn kv.2 = false := by
        revert hr; cases isResourceReturn kv.2 <;> simp
      have hstep : resolveStep (r, p) kv =
          (r ++ [(kv.1, if kv.2.isSig then kv.2.sigValue else kv.2.asIs)], p) := by
        simp [resolveStep, hr']
      simp only [List.foldl_cons, hstep, ih]
      simp [nowEntries, pendingEntries, List.filterMap_cons, List.filter_cons, hr',
        isUnresolvedResource]

theorem resolveCaptures_eq (caps : List (String × CapVal)) :
    resolveCaptures caps = (nowEntries caps, pendingEntries caps) := by
  simpa using resolveCaptures_spec caps [] []

theorem nowEntries_keys_sub (caps : List (String × CapVal)) (k : String)
    (h : k ∈ (nowEntries caps).map Prod.fst) : k ∈ caps.map Prod.fst := by
  induction caps with
  | nil => simp [nowEntries] at h
  | cons kv t ih =>
    rw [nowEntries, List.filterMap_cons] at h
    split at h
    · exact List.mem_cons_of_mem _ (ih h)
    · rename_i heq
      rw [List.map_cons, List.mem_cons] at h ⊢
      rcases h with h | h
      · left
        split at heq
        · split at heq
          · cases heq; exact h ▸ rfl
          · cases heq
        · cases heq; exact h ▸ rfl
      · exact Or.inr (ih h)

theorem pendingEntries_keys_sub (caps : List (String × CapVal)) (k : String)
    (h : k ∈ (pendingEntries caps).map Prod.fst) : k ∈ caps.map Prod.fst := by
  have hsub : (pendingEntries caps).Sublist caps := List.filter_sublist caps
  exact (hsub.map Prod.fst).mem h

theorem pending_now_disjoint (caps : List (String × CapVal))
    (hkeys : (caps.map Prod.fst).Nodup) (k : String)
    (hp : k ∈ (pendingEntries caps).map Prod.fst)
    (hn : k ∈ (nowEntries caps).map Prod.fst) : False := by
  induction caps with
  | nil => simp [pendingEntries] at hp
  | cons kv t ih =>
    rw [List.map_cons, List.nodup_cons] at hkeys
    by_cases hu : isUnresolvedResource kv.2 = true
    · have hpe : pendingEntries (kv :: t) = kv :: pendingEntries t := by
        simp [pendingEntries, List.filter_cons, hu]
      have hne : nowEntries (kv :: t) = nowEntries t := by
        simp only [isUnresolvedResource, Bool.and_eq_true, Bool.not_eq_true', decide_eq_false_iff_not] at hu
        simp [nowEntries, List.filterMap_cons, hu.1, hu.2]
      rw [hpe, List.map_cons, List.mem_cons] at hp
      rw [hne] at hn
      rcases hp with hp | hp
      · exact hkeys.1 (hp ▸ nowEntries_keys_sub t k hn)
      · exact ih hkeys.2 hp hn
    · have hu' : isUnresolvedResource kv.2 = false := by
        revert hu; cases isUnresolvedResource kv.2 <;> simp
      have hpe : pendingEntries (kv :: t) = pendingEntries t := by
        simp [pendingEntries, List.filter_cons, hu']
      rw [hpe] at hp
      have hn' : k = kv.1 ∨ k ∈ (nowEntries t).map Prod.fst := by
        simp only [isUnresolvedResource, Bool.and_eq_false_iff] at hu'
        rcases hu' with hu' | hu'
        · have hu'' : isResourceReturn kv.2 = false := hu'
          rw [nowEntries, List.filterMap_cons] at hn
          simp only [hu'', Bool.false_eq_true, if_false] at hn
          rw [List.map_cons, List.mem_cons] at hn
          exact hn
        · have hs : kv.2.rstate = RState.resolved := by
            revert hu'
            cases hdec : decide (kv.2.rstate = RState.resolved) <;> simp_all
          rw [nowEntries, List.filterMap_cons] at hn
          by_cases hrr : isResourceReturn kv.2 = true
          · simp only [hrr, if_true, hs, if_pos rfl] at hn
            rw [List.map_cons, List.mem_cons] at hn
            exact hn
          · have hrr' : isResourceReturn kv.2 = false := by
              revert hrr; cases isResourceReturn kv.2 <;> simp
            simp only [hrr', Bool.false_eq_true, if_false] at hn
            rw [List.map_cons, List.mem_cons] at hn
            exact hn
      rcases hn' with hn' | hn'
      · exact hkeys.1 (hn' ▸ pendingEntries_keys_sub t k hp)
      · exact ih hkeys.2 hp hn'

theorem jsAssign_notMem (fields : List (String × Json)) (k : String) (v : Json)
    (h : k ∉ fields.map Prod.fst) : jsAssign fields k v = fields ++ [(k, v)] := by
  have hany : fields.any (fun f => f.1 = k) = false := by
    rw [List.any_eq_false]
    intro f hf
    simp only [decide_eq_true_eq]
    intro heq
    exact h (heq ▸ List.mem_map_of_mem Prod.fst hf)
  simp [jsAssign, hany]

theorem asyncResolved_append (pending : List (String × CapVal)) :
    ∀ resolved : List (String × Json),
    (∀ kv ∈ pending, kv.1 ∉ resolved.map Prod.fst) →
    (pending.map Prod.fst).Nodup →
    asyncResolved resolved pending = resolved ++ pending.map awaitOne := by
  induction pending with
  | nil => intro resolved _ _; simp [asyncResolved]
  | cons kv t ih =>
    intro resolved hdisj hnd
    rw [List.map_cons, List.nodup_cons] at hnd
    have hstep : jsAssign resolved kv.1 kv.2.promisePayload = resolved ++ [(kv.1, kv.2.promisePayload)] :=
      jsAssign_notMem _ _ _ (hdisj kv (List.mem_cons_self _ _))
    have hrest : asyncResolved (resolved ++ [(kv.1, kv.2.promisePayload)]) t =
        (resolved ++ [(kv.1, kv.2.promisePayload)]) ++ t.map awaitOne := by
      apply ih
      · intro kv' hkv'
        rw [List.map_append, List.mem_append]
        rintro (hmem | hmem)
        · exact hdisj kv' (List.mem_cons_of_mem _ hkv') hmem
        · simp only [List.map_cons, List.map_nil, List.mem_singleton] at hmem
          exact hnd.1 (hmem ▸ List.mem_map_of_mem Prod.fst hkv')
      · exact hnd.2
    show asyncResolved (jsAssign resolved kv.1 kv.2.promisePayload) t = _
    rw [hstep, hrest, List.append_assoc]
    rfl

/-- C6, counterexample: with a pending resource listed before a plain
value, the promise path writes the awaited payload after the other keys,
so the eventually produced script content differs from the synchronous
output that would have been produced had the resource been resolved
upfront (`capsResolvedUpfront` replaces the pending resource by a
resolved one carrying the awaited payload).  The sync/promise split
itself behaves as claimed; the content identity is refuted. -/
theorem useInlineTask_async_order_cex :
    isSyncResult (useInlineTask ("f") (some capsPendingFirst)) = false
    ∧ isSyncResult (useInlineTask ("f") (some capsResolvedUpfront)) = true
    ∧ contentOf (useInlineTask ("f") (some capsPendingFirst)) ≠
        contentOf (useInlineTask ("f") (some capsResolvedUpfront)) := by
  refine ⟨by decide, by decide, by decide⟩

/-- C6 as amended: for a captures mapping with distinct keys, the runtime
returns the element synchronously iff no capture is an unresolved
resource; otherwise it returns a promise; and the produced script content
(on either path) serialises the resolved mapping in which the immediately
resolved entries come first in capture order, followed by the awaited
payloads of the pending resources in capture order — rather than in the
original input order. -/
theorem useInlineTask_sync_async (fnSource : String) (caps : List (String × CapVal))
    (hkeys : (caps.map Prod.fst).Nodup) :
    (isSyncResult (useInlineTask fnSource (some caps)) = true ↔
      ∀ kv ∈ caps, isUnresolvedResource kv.2 = false)
    ∧ contentOf (useInlineTask fnSource (some caps)) =
        escapeInlineScript ("(" ++ fnSource ++ ")(" ++
          stringify (Json.jobj (nowEntries caps ++ (pendingEntries caps).map awaitOne)) ++ ")") := by
  have hrc : resolveCaptures caps = (nowEntries caps, pendingEntries caps) :=
    resolveCaptures_eq caps
  have hasync : asyncResolved (nowEntries caps) (pendingEntries caps) =
      nowEntries caps ++ (pendingEntries caps).map awaitOne := by
    apply asyncResolved_append
    · intro kv hkv hmem
      exact pending_now_disjoint caps hkeys kv.1
        (List.mem_map_of_mem Prod.fst hkv) hmem
    · exact ((List.filter_sublist caps).map Prod.fst).nodup hkeys
  constructor
  · by_cases hp : (pendingEntries caps).length = 0
    · have hpe : pendingEntries caps = [] := List.length_eq_zero.mp hp
      have hsync : isSyncResult (useInlineTask fnSource (some caps)) = true := by
        simp [useInlineTask, hrc, hp, isSyncResult]
      rw [hsync]
      simp only [true_iff]
      intro kv hkv
      have : kv ∉ pendingEntries caps := by rw [hpe]; exact List.not_mem_nil kv
      rw [pendingEntries, List.mem_filter] at this
      revert this
      cases hu : isUnresolvedResource kv.2 <;> simp [hkv]
    · have hsync : isSyncResult (useInlineTask fnSource (some caps)) = false := by
        simp [useInlineTask, hrc, hp, isSyncResult]
      rw [hsync]
      refine iff_of_false (by simp) ?_
      intro hall
      have hnil : pendingEntries caps = [] := by
        rw [pendingEntries, List.filter_eq_nil_iff]
        intro kv hkv
        simp [hall kv hkv]
      exact hp (by rw [hnil]; rfl)
  · by_cases hp : (pendingEntries caps).length = 0
    · have hpe : pendingEntries caps = [] := List.length_eq_zero.mp hp
      simp [useInlineTask, hrc, hp, contentOf, makeScriptJsx, hpe]
    · simp [useInlineTask, hrc, hp, contentOf, makeScriptJsx, hasync]

/-- Witness for the amended C6 theorem at the counterexample mapping. -/
theorem useInlineTask_sync_async_witness :
    (capsPendingFirst.map Prod.fst).Nodup
    ∧ ((isSyncResult (useInlineTask ("f") (some capsPendingFirst)) = true ↔
        ∀ kv ∈ capsPendingFirst, isUnresolvedResource kv.2 = false)
      ∧ contentOf (useInlineTask ("f") (some capsPendingFirst)) =
          escapeInlineScript ("(" ++ "f" ++ ")(" ++
            stringify (Json.jobj (nowEntries capsPendingFirst ++
              (pendingEntries capsPendingFirst).map awaitOne)) ++ ")")) :=
  ⟨by decide, useInlineTask_sync_async ("f") capsPendingFirst (by decide)⟩

theorem chainHas_scope (n : String) (cur cur' : List String) (outer : List (List String))
    (x : List String) (hsub : cur ⊆ cur') (h : chainHas n cur outer = true) :
    chainHas n x (cur' :: outer) = true := by
  simp only [chainHas, Bool.or_eq_true, List.any_cons, List.elem_iff] at h ⊢
  rcases h with h | h
  · exact Or.inr (Or.inl (hsub h))
  · exact Or.inr (Or.inr h)

theorem chainHas_false_scope (n : String) (cur cur' : List String)
    (outer : List (List String)) (x : List String) (hsub : cur ⊆ cur')
    (h : chainHas n x (cur' :: outer) = false) : chainHas n cur outer = false := by
  by_contra hne
  have : chainHas n cur outer = true := by
    revert hne; cases chainHas n cur outer <;> simp
  rw [chainHas_scope n cur cur' outer x hsub this] at h
  simp at h

theorem chainHas_false_mono (n : String) (cur cur' : List String)
    (outer : List (List String)) (hsub : cur ⊆ cur')
    (h : chainHas n cur' outer = false) : chainHas n cur outer = false := by
  by_contra hne
  have htrue : chainHas n cur outer = true := by
    revert hne; cases chainHas n cur outer <;> simp
  have h2 : chainHas n cur' outer = true := by
    simp only [chainHas, Bool.or_eq_true, List.elem_iff] at htrue ⊢
    rcases htrue with hh | hh
    · exact Or.inl (hsub hh)
    · exact Or.inr hh
  rw [h2] at h
  simp at h

theorem FVExt_rfl (capN : List String) (outer : List (List String)) (st : FVState) :
    FVExt capN outer st st :=
  ⟨fun _ h => h, [], by simp, by simp⟩

theorem FVExt_trans {capN : List String} {outer : List (List String)} {st st1 st2 : FVState}
    (h1 : FVExt capN outer st st1) (h2 : FVExt capN outer st1 st2) :
    FVExt capN outer st st2 := by
  obtain ⟨hc1, t1, hr1, hp1⟩ := h1
  obtain ⟨hc2, t2, hr2, hp2⟩ := h2
  refine ⟨fun a ha => hc2 (hc1 ha), t1 ++ t2, by rw [hr2, hr1, List.append_assoc], ?_⟩
  intro pr hpr
  rcases List.mem_append.mp hpr with hpr | hpr
  · exact hp1 pr hpr
  · exact ⟨(hp2 pr hpr).1, chainHas_false_mono _ _ _ _ hc1 (hp2 pr hpr).2⟩

theorem FVExt_scope {capN : List String} {outer : List (List String)} {st : FVState}
    {cur' names : List String} {inner : FVState} (hsub : st.cur ⊆ cur')
    (hinner : FVExt capN (cur' :: outer) (⟨names, st.refs⟩ : FVState) inner) :
    FVExt capN outer st ⟨cur', inner.refs⟩ := by
  obtain ⟨_, t, hr, hp⟩ := hinner
  refine ⟨hsub, t, hr, ?_⟩
  intro pr hpr
  exact ⟨(hp pr hpr).1, chainHas_false_scope _ _ _ _ _ hsub (hp pr hpr).2⟩

theorem FVExt_grow {capN : List String} {outer : List (List String)} {st : FVState}
    {names : List String} {st' : FVState}
    (h : FVExt capN outer (⟨st.cur ++ names, st.refs⟩ : FVState) st') :
    FVExt capN outer st st' := by
  obtain ⟨hc, t, hr, hp⟩ := h
  refine ⟨fun a ha => hc (List.mem_append_left names ha), t, hr, ?_⟩
  intro pr hpr
  exact ⟨(hp pr hpr).1,
    chainHas_false_mono _ _ _ _ (fun a ha => List.mem_append_left names ha) (hp pr hpr).2⟩

set_option maxHeartbeats 2000000 in
mutual
theorem walkFree_extend (node : Node) : ∀ (capN : List String) (outer : List (List String))
    (ctx : ParentCtx) (st : FVState), FVExt capN outer st (walkFree capN outer ctx node st) := by
  intro capN outer ctx st
  cases node with
  | ident nm =>
    rw [walkFree]
    by_cases hcond : (isVariableReference ctx && !chainHas nm st.cur outer
        && capN.contains nm) = true
    · rw [if_pos hcond]
      refine ⟨fun a ha => ha, [(ctx, nm)], rfl, ?_⟩
      intro pr hpr
      rw [List.mem_singleton] at hpr
      subst hpr
      simp only [Bool.and_eq_true, Bool.not_eq_true'] at hcond
      exact ⟨List.elem_iff.mp hcond.2, hcond.1.2⟩
    · rw [if_neg hcond]
      exact FVExt_rfl capN outer st
  | lit =>
    simp only [walkFree]
    exact FVExt_rfl capN outer st
  | omitted =>
    simp only [walkFree]
    exact FVExt_rfl capN outer st
  | call p callee args =>
    simp only [walkFree]
    exact FVExt_trans (walkFree_extend callee capN outer .other st)
      (walkFreeL_extend args capN outer .other _)
  | propAccess obj prop =>
    simp only [walkFree]
    exact FVExt_trans (walkFree_extend obj capN outer .other st)
      (walkFree_extend prop capN outer .propAccessName _)
  | objLit props =>
    simp only [walkFree]
    exact walkFreeL_extend props capN outer .other st
  | propAssign nm value =>
    simp only [walkFree]
    exact FVExt_trans (walkFree_extend nm capN outer .propAssignName st)
      (walkFree_extend value capN outer .other _)
  | shorthandProp nm =>
    simp only [walkFree]
    exact walkFree_extend nm capN outer .shorthandPropName st
  | paren e =>
    simp only [walkFree]
    exact walkFree_extend e capN outer .other st
  | binExpr lhs rhs =>
    simp only [walkFree]
    exact FVExt_trans (walkFree_extend lhs capN outer .other st)
      (walkFree_extend rhs capN outer .other _)
  | jsxFragment cs =>
    simp only [walkFree]
    exact walkFreeL_extend cs capN outer .other st
  | jsxElem cs =>
    simp only [walkFree]
    exact walkFreeL_extend cs capN outer .other st
  | param nm =>
    simp only [walkFree]
    exact walkFree_extend nm capN outer .paramName st
  | objPattern els =>
    simp only [walkFree]
    exact walkFreeL_extend els capN outer .other st
  | arrPattern els =>
    simp only [walkFree]
    exact walkFreeL_extend els capN outer .other st
  | bindingElem propName nm =>
    rcases propName with _ | pp
    · simp only [walkFree]
      exact walkFree_extend nm capN outer .bindingElemName st
    · simp only [walkFree]
      exact FVExt_trans (walkFree_extend pp capN outer .bindingPropName st)
        (walkFree_extend nm capN outer .bindingElemName _)
  | varDecl nm vinit =>
    rcases vinit with _ | i
    · simp only [walkFree]
      exact walkFree_extend nm capN outer .varDeclName st
    · simp only [walkFree]
      exact FVExt_trans (walkFree_extend nm capN outer .varDeclName st)
        (walkFree_extend i capN outer .other _)
  | varDeclList ds =>
    simp only [walkFree]
    exact walkFreeL_extend ds capN outer .other st
  | exprStmt p e =>
    simp only [walkFree]
    exact walkFree_extend e capN outer .other st
  | varStmt p dl =>
    simp only [walkFree]
    exact FVExt_grow (walkFree_extend dl capN outer .other _)
  | retStmt p e =>
    rcases e with _ | x
    · simp only [walkFree]
      exact FVExt_rfl capN outer st
    · simp only [walkFree]
      exact walkFree_extend x capN outer .other st
  | ifStmt p cond thenPart elsePart =>
    rcases elsePart with _ | e
    · simp only [walkFree]
      exact FVExt_trans (walkFree_extend cond capN outer .other st)
        (walkFree_extend thenPart capN outer .other _)
    · simp only [walkFree]
      exact FVExt_trans (walkFree_extend cond capN outer .other st)
        (FVExt_trans (walkFree_extend thenPart capN outer .other _)
          (walkFree_extend e capN outer .other _))
  | tryStmt p tryBlock catchPart finallyPart =>
    rcases catchPart with _ | cc <;> rcases finallyPart with _ | ff
    · simp only [walkFree]
      exact walkFree_extend tryBlock capN outer .other st
    · simp only [walkFree]
      exact FVExt_trans (walkFree_extend tryBlock capN outer .other st)
        (walkFree_extend ff capN outer .other _)
    · simp only [walkFree]
      exact FVExt_trans (walkFree_extend tryBlock capN outer .other st)
        (walkFree_extend cc capN outer .other _)
    · simp only [walkFree]
      exact FVExt_trans (walkFree_extend tryBlock capN outer .other st)
        (FVExt_trans (walkFree_extend cc capN outer .other _)
          (walkFree_extend ff capN outer .other _))
  | block p ss =>
    simp only [walkFree]
    exact FVExt_scope (fun a ha => ha)
      (walkFreeL_extend ss capN (st.cur :: outer) .other ⟨[], st.refs⟩)
  | catchClause decl body =>
    rcases decl with _ | d
    · simp only [walkFree]
      exact FVExt_scope (fun a ha => ha)
        (walkFree_extend body capN (st.cur :: outer) .other _)
    · simp only [walkFree]
      exact FVExt_scope (fun a ha => ha)
        (FVExt_trans (walkFree_extend d capN (st.cur :: outer) .other _)
          (walkFree_extend body capN (st.cur :: outer) .other _))
  | forStmt p initPart cond incr body =>
    rcases initPart with _ | i <;> rcases cond with _ | c <;> rcases incr with _ | inc
    · simp only [walkFree]
      exact FVExt_scope (fun a ha => ha)
        (walkFree_extend body capN (st.cur :: outer) .other _)
    · simp only [walkFree]
      exact FVExt_scope (fun a ha => ha)
        (FVExt_trans (walkFree_extend inc capN (st.cur :: outer) .other _)
          (walkFree_extend body capN (st.cur :: outer) .other _))
    · simp only [walkFree]
      exact FVExt_scope (fun a ha => ha)
        (FVExt_trans (walkFree_extend c capN (st.cur :: outer) .other _)
          (walkFree_extend body capN (st.cur :: outer) .other _))
    · simp only [walkFree]
      exact FVExt_scope (fun a ha => ha)
        (FVExt_trans (walkFree_extend c capN (st.cur :: outer) .other _)
          (FVExt_trans (walkFree_extend inc capN (st.cur :: outer) .other _)
            (walkFree_extend body capN (st.cur :: outer) .other _)))
    · simp only [walkFree]
      exact FVExt_scope (fun a ha => ha)
        (FVExt_trans (walkFree_extend i capN (st.cur :: outer) .other _)
          (walkFree_extend body capN (st.cur :: outer) .other _))
    · simp only [walkFree]
      exact FVExt_scope (fun a ha => ha)
        (FVExt_trans (walkFree_extend i capN (st.cur :: outer) .other _)
          (FVExt_trans (walkFree_extend inc capN (st.cur :: outer) .other _)
            (walkFree_extend body capN (st.cur :: outer) .other _)))
    · simp only [walkFree]
      exact FVExt_scope (fun a ha => ha)
        (FVExt_trans (walkFree_extend i capN (st.cur :: outer) .other _)
          (FVExt_trans (walkFree_extend c capN (st.cur :: outer) .other _)
            (walkFree_extend body capN (st.cur :: outer) .other _)))
    · simp only [walkFree]
      exact FVExt_scope (fun a ha => ha)
        (FVExt_trans (walkFree_extend i capN (st.cur :: outer) .other _)
          (FVExt_trans (walkFree_extend c capN (st.cur :: outer) .other _)
            (FVExt_trans (walkFree_extend inc capN (st.cur :: outer) .other _)
              (walkFree_extend body capN (st.cur :: outer) .other _))))
  | forOfStmt p initPart iterated body =>
    simp only [walkFree]
    exact FVExt_scope (fun a ha => ha)
      (FVExt_trans (walkFree_extend initPart capN (st.cur :: outer) .other _)
        (FVExt_trans (walkFree_extend iterated capN (st.cur :: outer) .other _)
          (walkFree_extend body capN (st.cur :: outer) .other _)))
  | forInStmt p initPart iterated body =>
    simp only [walkFree]
    exact FVExt_scope (fun a ha => ha)
      (FVExt_trans (walkFree_extend initPart capN (st.cur :: outer) .other _)
        (FVExt_trans (walkFree_extend iterated capN (st.cur :: outer) .other _)
          (walkFree_extend body capN (st.cur :: outer) .other _)))
  | arrowFn p params body =>
    have hsub : st.cur ⊆ st.cur := fun a ha => ha
    cases body
    case block bp ss =>
      simp only [walkFree]
      exact FVExt_scope hsub
        (walkFreeL_extend ss capN (st.cur :: outer) .other ⟨paramNames params, st.refs⟩)
    all_goals
      simp only [walkFree]
    all_goals
      exact FVExt_scope hsub (walkChildren_extend _ capN (st.cur :: outer) _)
  | fnExpr p nm params body =>
    have hsub : st.cur ⊆ st.cur := fun a ha => ha
    cases body
    case block bp ss =>
      simp only [walkFree]
      exact FVExt_scope hsub
        (walkFreeL_extend ss capN (st.cur :: outer) .other ⟨paramNames params, st.refs⟩)
    all_goals
      simp only [walkFree]
    all_goals
      exact FVExt_scope hsub (walkChildren_extend _ capN (st.cur :: outer) _)
  | fnDecl p nm params body =>
    have hsub : st.cur ⊆ (match nm with | some n => st.cur ++ [n] | none => st.cur) := by
      cases nm with
      | none => exact fun a ha => ha
      | some n => exact fun a ha => List.mem_append_left [n] ha
    rcases body with _ | bb
    · simp only [walkFree]
      exact ⟨hsub, [], by simp, by simp⟩
    · cases bb
      case block bp ss =>
        simp only [walkFree]
        exact FVExt_scope hsub
          (walkFreeL_extend ss capN (_ :: outer) .other ⟨paramNames params, st.refs⟩)
      all_goals
        simp only [walkFree]
      all_goals
        exact FVExt_scope hsub (walkChildren_extend _ capN (_ :: outer) _)

theorem walkFreeL_extend (nodes : List Node) : ∀ (capN : List String)
    (outer : List (List String)) (ctx : ParentCtx) (st : FVState),
    FVExt capN outer st (walkFreeL capN outer ctx nodes st) := by
  intro capN outer ctx st
  cases nodes with
  | nil =>
    simp only [walkFreeL]
    exact FVExt_rfl capN outer st
  | cons n rest =>
    simp only [walkFreeL]
    exact FVExt_trans (walkFree_extend n capN outer ctx st)
      (walkFreeL_extend rest capN outer ctx _)

theorem walkChildren_extend (node : Node) : ∀ (capN : List String)
    (outer : List (List String)) (st : FVState),
    FVExt capN outer st (walkChildren capN outer node st) := by
  intro capN outer st
  cases node with
  | call p callee args =>
    simp only [walkChildren]
    exact FVExt_trans (walkFree_extend callee capN outer .other st)
      (walkFreeL_extend args capN outer .other _)
  | propAccess obj prop =>
    simp only [walkChildren]
    exact FVExt_trans (walkFree_extend obj capN outer .other st)
      (walkFree_extend prop capN outer .propAccessName _)
  | objLit props =>
    simp only [walkChildren]
    exact walkFreeL_extend props capN outer .other st
  | propAssign nm value =>
    simp only [walkChildren]
    exact FVExt_trans (walkFree_extend nm capN outer .propAssignName st)
      (walkFree_extend value capN outer .other _)
  | shorthandProp nm =>
    simp only [walkChildren]
    exact walkFree_extend nm capN outer .shorthandPropName st
  | paren e =>
    simp only [walkChildren]
    exact walkFree_extend e capN outer .other st
  | binExpr lhs rhs =>
    simp only [walkChildren]
    exact FVExt_trans (walkFree_extend lhs capN outer .other st)
      (walkFree_extend rhs capN outer .other _)
  | arrowFn p params body =>
    simp only [walkChildren]
    exact FVExt_trans (walkFreeL_extend params capN outer .other st)
      (walkFree_extend body capN outer .other _)
  | fnExpr p nm params body =>
    simp only [walkChildren]
    exact FVExt_trans (walkFreeL_extend params capN outer .other st)
      (walkFree_extend body capN outer .other _)
  | jsxFragment cs =>
    simp only [walkChildren]
    exact walkFreeL_extend cs capN outer .other st
  | jsxElem cs =>
    simp only [walkChildren]
    exact walkFreeL_extend cs capN outer .other st
  | ident nm =>
    simp only [walkChildren]
    exact FVExt_rfl capN outer st
  | lit =>
    simp only [walkChildren]
    exact FVExt_rfl capN outer st
  | omitted =>
    simp only [walkChildren]
    exact FVExt_rfl capN outer st
  | param nm =>
    simp only [walkChildren]
    exact FVExt_rfl capN outer st
  | objPattern els =>
    simp only [walkChildren]
    exact FVExt_rfl capN outer st
  | arrPattern els =>
    simp only [walkChildren]
    exact FVExt_rfl capN outer st
  | bindingElem propName nm =>
    simp only [walkChildren]
    exact FVExt_rfl capN outer st
  | varDecl nm vinit =>
    simp only [walkChildren]
    exact FVExt_rfl capN outer st
  | varDeclList ds =>
    simp only [walkChildren]
    exact FVExt_rfl capN outer st
  | exprStmt p e =>
    simp only [walkChildren]
    exact FVExt_rfl capN outer st
  | varStmt p dl =>
    simp only [walkChildren]
    exact FVExt_rfl capN outer st
  | fnDecl p nm params body =>
    simp only [walkChildren]
    exact FVExt_rfl capN outer st
  | retStmt p e =>
    simp only [walkChildren]
    exact FVExt_rfl capN outer st
  | block p ss =>
    simp only [walkChildren]
    exact FVExt_rfl capN outer st
  | ifStmt p cond thenPart elsePart =>
    simp only [walkChildren]
    exact FVExt_rfl capN outer st
  | forStmt p initPart cond incr body =>
    simp only [walkChildren]
    exact FVExt_rfl capN outer st
  | forOfStmt p initPart iterated body =>
    simp only [walkChildren]
    exact FVExt_rfl capN outer st
  | forInStmt p initPart iterated body =>
    simp only [walkChildren]
    exact FVExt_rfl capN outer st
  | tryStmt p tryBlock catchPart finallyPart =>
    simp only [walkChildren]
    exact FVExt_rfl capN outer st
  | catchClause decl body =>
    simp only [walkChildren]
    exact FVExt_rfl capN outer st
end

theorem chainHas_of_mem_cur (n : String) (cur : List String) (outer : List (List String))
    (h : n ∈ cur) : chainHas n cur outer = true := by
  simp only [chainHas, Bool.or_eq_true, List.elem_iff]
  exact Or.inl h

theorem no_new_of_chainHas {capN : List String} {outer' : List (List String)}
    {s0 inner : FVState} (n : String) (hhas : chainHas n s0.cur outer' = true)
    (hext : FVExt capN outer' s0 inner) :
    ∀ pr ∈ inner.refs, pr.2 = n → pr ∈ s0.refs := by
  obtain ⟨_, t, hr, hp⟩ := hext
  intro pr hpr heq
  rw [hr, List.mem_append] at hpr
  rcases hpr with hpr | hpr
  · exact hpr
  · have := (hp pr hpr).2
    rw [heq, hhas] at this
    simp at this

theorem walkFreeL_append (capN : List String) (outer : List (List String))
    (ctx : ParentCtx) (l1 l2 : List Node) (st : FVState) :
    walkFreeL capN outer ctx (l1 ++ l2) st =
      walkFreeL capN outer ctx l2 (walkFreeL capN outer ctx l1 st) := by
  induction l1 generalizing st with
  | nil => simp [walkFreeL]
  | cons n rest ih =>
    rw [List.cons_append, walkFreeL, walkFreeL, ih]

theorem findFreeVarRefs_sub (fn : Node) (capN : List String) :
    ∀ pr ∈ findFreeVarRefs fn capN, pr.2 ∈ capN := by
  intro pr hpr
  cases fn
  case arrowFn p params body =>
    cases body
    case block bp ss =>
      obtain ⟨_, t, hr, hp⟩ :=
        walkFreeL_extend ss capN [] .other ⟨paramNames params, []⟩
      simp only [findFreeVarRefs] at hpr
      rw [hr] at hpr
      exact (hp pr (by simpa using hpr)).1
    all_goals {
      obtain ⟨_, t, hr, hp⟩ :=
        walkFree_extend _ capN [] .other ⟨paramNames params, []⟩
      simp only [findFreeVarRefs] at hpr
      rw [hr] at hpr
      exact (hp pr (by simpa using hpr)).1
    }
  case fnExpr p nmf params body =>
    cases body
    case block bp ss =>
      obtain ⟨_, t, hr, hp⟩ :=
        walkFreeL_extend ss capN [] .other ⟨paramNames params, []⟩
      simp only [findFreeVarRefs] at hpr
      rw [hr] at hpr
      exact (hp pr (by simpa using hpr)).1
    all_goals {
      obtain ⟨_, t, hr, hp⟩ :=
        walkFree_extend _ capN [] .other ⟨paramNames params, []⟩
      simp only [findFreeVarRefs] at hpr
      rw [hr] at hpr
      exact (hp pr (by simpa using hpr)).1
    }
  all_goals simp [findFreeVarRefs] at hpr

theorem contains_append_str (l1 l2 : List String) (a : String) :
    (l1 ++ l2).contains a = (l1.contains a || l2.contains a) := by
  simp [List.elem_iff]

theorem dedupFirst_go (l : List String) :
    ∀ acc : List String,
    l.foldl (fun acc x => if acc.contains x then acc else acc ++ [x]) acc =
      acc ++ firstOccurrences (l.filter (fun y => !acc.contains y)) := by
  induction l with
  | nil => intro acc; simp [firstOccurrences]
  | cons x t ih =>
    intro acc
    rw [List.foldl_cons]
    by_cases hx : acc.contains x = true
    · rw [if_pos hx, ih, List.filter_cons]
      simp only [hx, Bool.not_true, Bool.false_eq_true, if_false]
    · have hx' : acc.contains x = false := by
        revert hx; cases acc.contains x <;> simp
      rw [if_neg hx, ih, List.filter_cons]
      simp only [hx', Bool.not_false, if_true]
      rw [firstOccurrences]
      have hfilter : (t.filter (fun y => !(acc ++ [x]).contains y)) =
          ((t.filter (fun y => !acc.contains y)).filter (fun y => y ≠ x)) := by
        rw [List.filter_filter]
        apply List.filter_congr
        intro a _
        rw [contains_append_str]
        by_cases hax : a = x
        · subst hax
          simp
        · have : ([x] : List String).contains a = false := by
            simp only [List.contains_cons, List.contains_nil, Bool.or_false]
            exact beq_eq_false_iff_ne.mpr hax
          simp [this, hax]
      rw [hfilter, List.append_assoc]
      rfl

theorem chainHas_of_mem_head (n : String) (x cur' : List String)
    (outer : List (List String)) (h : n ∈ cur') :
    chainHas n x (cur' :: outer) = true := by
  simp only [chainHas, List.any_cons, Bool.or_eq_true, List.elem_iff]
  exact Or.inr (Or.inl h)

theorem dedupFirst_eq (l : List String) : dedupFirst l = firstOccurrences l := by
  rw [dedupFirst, dedupFirst_go l []]
  simp

theorem mem_firstOccurrences (l : List String) (x : String) :
    x ∈ firstOccurrences l ↔ x ∈ l := by
  induction l using firstOccurrences.induct with
  | case1 => simp [firstOccurrences]
  | case2 y t ih =>
    rw [firstOccurrences]
    by_cases hx : x = y
    · subst hx
      simp
    · simp only [List.mem_cons, hx, false_or]
      rw [ih, List.mem_filter]
      simp [hx]

theorem nodup_firstOccurrences (l : List String) : (firstOccurrences l).Nodup := by
  induction l using firstOccurrences.induct with
  | case1 => simp [firstOccurrences]
  | case2 y t ih =>
    rw [firstOccurrences, List.nodup_cons]
    refine ⟨?_, ih⟩
    intro hmem
    have := (mem_firstOccurrences _ _).mp hmem
    rw [List.mem_filter] at this
    simp at this

/-- C4: when auto-capture produces edits, the trailing captures literal
lists exactly the de-duplicated rewritten names in first-occurrence order
of the callback walk, and every rewritten name appears in it exactly
once. -/
theorem captureNames_dedup_first (fn enclosing : Node) (callPos : Nat) (ce : CaptureEdits)
    (h : applyAutoCapture fn enclosing callPos = some ce) :
    ce.captureNames = firstOccurrences (ce.rewrites.map (fun r => r.2))
    ∧ ∀ x ∈ ce.rewrites.map (fun r => r.2), ce.captureNames.count x = 1 := by
  simp only [applyAutoCapture] at h
  split at h
  · exact absurd h (by simp)
  · split at h
    · exact absurd h (by simp)
    · rw [Option.some.injEq] at h
      subst h
      refine ⟨dedupFirst_eq _, ?_⟩
      intro x hx
      rw [dedupFirst_eq]
      exact List.count_eq_one_of_mem (nodup_firstOccurrences _)
        ((mem_firstOccurrences _ _).mpr hx)

/-- Witness for the C4 theorem at a concrete component. -/
theorem captureNames_dedup_first_witness :
    applyAutoCapture cbBasic compBasic 30 =
      some ⟨false, "__scope", [(ParentCtx.other, "x")], ["x"]⟩
    ∧ ((⟨false, "__scope", [(ParentCtx.other, "x")], ["x"]⟩ : CaptureEdits).captureNames =
        firstOccurrences (((⟨false, "__scope", [(ParentCtx.other, "x")], ["x"]⟩ :
          CaptureEdits).rewrites).map (fun r => r.2))
      ∧ ∀ x ∈ ((⟨false, "__scope", [(ParentCtx.other, "x")], ["x"]⟩ :
          CaptureEdits).rewrites).map (fun r => r.2),
          ((⟨false, "__scope", [(ParentCtx.other, "x")], ["x"]⟩ :
            CaptureEdits).captureNames).count x = 1) :=
  ⟨by decide, captureNames_dedup_first cbBasic compBasic 30 _ (by decide)⟩

/-- C9, counterexample: when the user program itself declares a variable
named `__scope` and the callback references it, the emitted capture list
contains `__scope`, which equals the written scope-parameter name — the
claimed distinctness fails. -/
theorem scopeParam_collision_cex :
    applyAutoCapture cbScopeName compScopeName 30 =
      some ⟨false, "__scope", [(ParentCtx.other, "__scope")], ["__scope"]⟩
    ∧ (⟨false, "__scope", [(ParentCtx.other, "__scope")], ["__scope"]⟩ :
        CaptureEdits).scopeParam ∈
      (⟨false, "__scope", [(ParentCtx.other, "__scope")], ["__scope"]⟩ :
        CaptureEdits).captureNames := by
  exact ⟨by decide, by decide⟩

/-- C9 as amended: the scope parameter written by auto-capture is distinct
from every emitted capture name, provided the capturable scope of the
enclosing function does not itself contain a declaration named
`__scope` — a collision can only come from user code declaring that
reserved name. -/
theorem scopeParam_distinct (fn enclosing : Node) (callPos : Nat) (ce : CaptureEdits)
    (hns : "__scope" ∉ collectScopeDeclarations enclosing callPos)
    (h : applyAutoCapture fn enclosing callPos = some ce) :
    ∀ nm ∈ ce.captureNames, nm ≠ ce.scopeParam := by
  simp only [applyAutoCapture] at h
  split at h
  · exact absurd h (by simp)
  · split at h
    · exact absurd h (by simp)
    · rw [Option.some.injEq] at h
      subst h
      intro nm hnm heq
      rw [dedupFirst_eq] at hnm
      have h2 := (mem_firstOccurrences _ _).mp hnm
      obtain ⟨pr, hpr, hpr2⟩ := List.mem_map.mp h2
      have h3 := findFreeVarRefs_sub fn _ pr hpr
      rw [hpr2, heq] at h3
      exact hns h3

/-- Witness for the amended C9 theorem at a component that does not
declare `__scope`. -/
theorem scopeParam_distinct_witness :
    "__scope" ∉ collectScopeDeclarations compBasic 30
    ∧ applyAutoCapture cbBasic compBasic 30 =
        some ⟨false, "__scope", [(ParentCtx.other, "x")], ["x"]⟩
    ∧ ∀ nm ∈ (⟨false, "__scope", [(ParentCtx.other, "x")], ["x"]⟩ :
        CaptureEdits).captureNames,
        nm ≠ (⟨false, "__scope", [(ParentCtx.other, "x")], ["x"]⟩ :
          CaptureEdits).scopeParam :=
  ⟨by decide, by decide,
    scopeParam_distinct cbBasic compBasic 30 _ (by decide) (by decide)⟩

/-- C2: the lexical classifier has no case for the name of a shorthand
property assignment, so it reports `true` (a value reference) for it, and
the transformer rewrites the `x` of the object literal `{ x }` to
`__scope.x` — producing `{ __scope.x }`, which is not valid syntax in an
object literal.  The walk emits exactly that occurrence for rewriting on
the failing input. -/
theorem shorthand_property_rewritten :
    isVariableReference ParentCtx.shorthandPropName = true
    ∧ findFreeVarRefs cbShorthand ["x"] = [(ParentCtx.shorthandPropName, "x")]
    ∧ (applyAutoCapture cbShorthand compShorthand 30).map (fun ce => ce.rewrites) =
        some [(ParentCtx.shorthandPropName, "x")] := by
  exact ⟨by decide, by decide, by decide⟩

/-- C3, counterexample: in the callback `() => { { use(x); const x = 1; } }`
the only occurrence of `x` lies beneath the block that re-declares `x`
(the occurrence precedes the declaration), yet the walk emits it for
rewriting — refuting «no occurrence of that name beneath the shadowing
scope is rewritten». -/
theorem shadowed_occurrence_rewritten_cex :
    findFreeVarRefs cbShadowBefore ["x"] = [(ParentCtx.other, "x")] := by decide

/-- C3 as amended: bindings introduced by a nested function's parameters,
a loop header, or a catch clause shadow *every* occurrence beneath the
construct — no such occurrence is emitted for rewriting; a named function
declaration likewise shadows its own body; but a binding introduced by a
variable statement in a block (or a function declaration's name among its
siblings) only protects occurrences the walk reaches *after* the
declaring statement: the references emitted while walking a block
`pre ++ decl :: post` that carry the shadowed name are exactly those the
prefix `pre` had already emitted. -/
theorem shadowing_respected (capN : List String) (outer : List (List String))
    (st : FVState) (n : String) :
    (∀ ctx p params body, n ∈ paramNames params →
      ∀ pr ∈ (walkFree capN outer ctx (.arrowFn p params body) st).refs,
        pr.2 = n → pr ∈ st.refs)
    ∧ (∀ ctx p nmf params body, n ∈ paramNames params →
      ∀ pr ∈ (walkFree capN outer ctx (.fnExpr p nmf params body) st).refs,
        pr.2 = n → pr ∈ st.refs)
    ∧ (∀ ctx p nmf params body, n ∈ paramNames params ∨ nmf = some n →
      ∀ pr ∈ (walkFree capN outer ctx (.fnDecl p nmf params body) st).refs,
        pr.2 = n → pr ∈ st.refs)
    ∧ (∀ ctx p initPart cond incr body,
        n ∈ (match initPart with
             | some dl => declListNames dl
             | none => ([] : List String)) →
      ∀ pr ∈ (walkFree capN outer ctx (.forStmt p initPart cond incr body) st).refs,
        pr.2 = n → pr ∈ st.refs)
    ∧ (∀ ctx p initPart iterated body, n ∈ declListNames initPart →
      ∀ pr ∈ (walkFree capN outer ctx (.forOfStmt p initPart iterated body) st).refs,
        pr.2 = n → pr ∈ st.refs)
    ∧ (∀ ctx p initPart iterated body, n ∈ declListNames initPart →
      ∀ pr ∈ (walkFree capN outer ctx (.forInStmt p initPart iterated body) st).refs,
        pr.2 = n → pr ∈ st.refs)
    ∧ (∀ ctx decl body,
        n ∈ (match decl with
             | some (.varDecl nmd _) => collectBindingNames nmd []
             | _ => ([] : List String)) →
      ∀ pr ∈ (walkFree capN outer ctx (.catchClause decl body) st).refs,
        pr.2 = n → pr ∈ st.refs)
    ∧ (∀ ctx bp pre d post, n ∈ stmtDeclNames d →
      ∀ pr ∈ (walkFree capN outer ctx (.block bp (pre ++ d :: post)) st).refs,
        pr.2 = n → pr ∈ (walkFreeL capN (st.cur :: outer) .other pre ⟨[], st.refs⟩).refs) := by
  refine ⟨?_, ?_, ?_, ?_, ?_, ?_, ?_, ?_⟩
  · -- arrow-function parameters
    intro ctx p params body hn pr hpr heq
    cases body
    case block bp ss =>
      simp only [walkFree] at hpr
      exact no_new_of_chainHas n (chainHas_of_mem_cur n _ _ hn)
        (walkFreeL_extend ss capN (st.cur :: outer) .other ⟨paramNames params, st.refs⟩)
        pr hpr heq
    all_goals {
      simp only [walkFree] at hpr
      exact no_new_of_chainHas n (chainHas_of_mem_cur n _ _ hn)
        (walkChildren_extend _ capN (st.cur :: outer) ⟨paramNames params, st.refs⟩)
        pr hpr heq
    }
  · -- function-expression parameters
    intro ctx p nmf params body hn pr hpr heq
    cases body
    case block bp ss =>
      simp only [walkFree] at hpr
      exact no_new_of_chainHas n (chainHas_of_mem_cur n _ _ hn)
        (walkFreeL_extend ss capN (st.cur :: outer) .other ⟨paramNames params, st.refs⟩)
        pr hpr heq
    all_goals {
      simp only [walkFree] at hpr
      exact no_new_of_chainHas n (chainHas_of_mem_cur n _ _ hn)
        (walkChildren_extend _ capN (st.cur :: outer) ⟨paramNames params, st.refs⟩)
        pr hpr heq
    }
  · -- function-declaration parameters or name
    intro ctx p nmf params body hn pr hpr heq
    rcases nmf with _ | nm2
    · -- anonymous: only the parameter case applies
      have hn' : n ∈ paramNames params := by
        rcases hn with hn | hn
        · exact hn
        · cases hn
      rcases body with _ | bb
      · simp only [walkFree] at hpr
        exact hpr
      · cases bb
        case block bp ss =>
          simp only [walkFree] at hpr
          exact no_new_of_chainHas n (chainHas_of_mem_cur n _ _ hn')
            (walkFreeL_extend ss capN (st.cur :: outer) .other ⟨paramNames params, st.refs⟩)
            pr hpr heq
        all_goals {
          simp only [walkFree] at hpr
          exact no_new_of_chainHas n (chainHas_of_mem_cur n _ _ hn')
            (walkChildren_extend _ capN (st.cur :: outer) ⟨paramNames params, st.refs⟩)
            pr hpr heq
        }
    · -- named: the name lands in the scope that now heads the outer chain
      have hhas : chainHas n (paramNames params) ((st.cur ++ [nm2]) :: outer) = true := by
        rcases hn with hn | hn
        · exact chainHas_of_mem_cur n _ _ hn
        · rw [Option.some.injEq] at hn
          exact chainHas_of_mem_head n _ _ _
            (List.mem_append_right st.cur (hn ▸ List.mem_singleton_self n))
      rcases body with _ | bb
      · simp only [walkFree] at hpr
        exact hpr
      · cases bb
        case block bp ss =>
          simp only [walkFree] at hpr
          exact no_new_of_chainHas n hhas
            (walkFreeL_extend ss capN ((st.cur ++ [nm2]) :: outer) .other
              ⟨paramNames params, st.refs⟩) pr hpr heq
        all_goals {
          simp only [walkFree] at hpr
          exact no_new_of_chainHas n hhas
            (walkChildren_extend _ capN ((st.cur ++ [nm2]) :: outer)
              ⟨paramNames params, st.refs⟩) pr hpr heq
        }
  · -- classic for-loop header bindings
    intro ctx p initPart cond incr body hn pr hpr heq
    rcases initPart with _ | i
    · cases hn
    · have hn' : n ∈ declListNames i := hn
      rcases cond with _ | c <;> rcases incr with _ | inc
      · simp only [walkFree] at hpr
        exact no_new_of_chainHas n (chainHas_of_mem_cur n _ _ hn')
          (FVExt_trans
            (walkFree_extend i capN (st.cur :: outer) .other ⟨declListNames i, st.refs⟩)
            (walkFree_extend body capN (st.cur :: outer) .other _)) pr hpr heq
      · simp only [walkFree] at hpr
        exact no_new_of_chainHas n (chainHas_of_mem_cur n _ _ hn')
          (FVExt_trans
            (walkFree_extend i capN (st.cur :: outer) .other ⟨declListNames i, st.refs⟩)
            (FVExt_trans (walkFree_extend inc capN (st.cur :: outer) .other _)
              (walkFree_extend body capN (st.cur :: outer) .other _))) pr hpr heq
      · simp only [walkFree] at hpr
        exact no_new_of_chainHas n (chainHas_of_mem_cur n _ _ hn')
          (FVExt_trans
            (walkFree_extend i capN (st.cur :: outer) .other ⟨declListNames i, st.refs⟩)
            (FVExt_trans (walkFree_extend c capN (st.cur :: outer) .other _)
              (walkFree_extend body capN (st.cur :: outer) .other _))) pr hpr heq
      · simp only [walkFree] at hpr
        exact no_new_of_chainHas n (chainHas_of_mem_cur n _ _ hn')
          (FVExt_trans
            (walkFree_extend i capN (st.cur :: outer) .other ⟨declListNames i, st.refs⟩)
            (FVExt_trans (walkFree_extend c capN (st.cur :: outer) .other _)
              (FVExt_trans (walkFree_extend inc capN (st.cur :: outer) .other _)
                (walkFree_extend body capN (st.cur :: outer) .other _)))) pr hpr heq
  · -- for-of header bindings
    intro ctx p initPart iterated body hn pr hpr heq
    simp only [walkFree] at hpr
    exact no_new_of_chainHas n (chainHas_of_mem_cur n _ _ hn)
      (FVExt_trans
        (walkFree_extend initPart capN (st.cur :: outer) .other
          ⟨declListNames initPart, st.refs⟩)
        (FVExt_trans (walkFree_extend iterated capN (st.cur :: outer) .other _)
          (walkFree_extend body capN (st.cur :: outer) .other _))) pr hpr heq
  · -- for-in header bindings
    intro ctx p initPart iterated body hn pr hpr heq
    simp only [walkFree] at hpr
    exact no_new_of_chainHas n (chainHas_of_mem_cur n _ _ hn)
      (FVExt_trans
        (walkFree_extend initPart capN (st.cur :: outer) .other
          ⟨declListNames initPart, st.refs⟩)
        (FVExt_trans (walkFree_extend iterated capN (st.cur :: outer) .other _)
          (walkFree_extend body capN (st.cur :: outer) .other _))) pr hpr heq
  · -- catch-clause binding
    intro ctx decl body hn pr hpr heq
    rcases decl with _ | d
    · cases hn
    · cases d
      case varDecl nmd vinit =>
        simp only [walkFree] at hpr
        exact no_new_of_chainHas n (chainHas_of_mem_cur n _ _ hn)
          (FVExt_trans
            (walkFree_extend (.varDecl nmd vinit) capN (st.cur :: outer) .other
              ⟨collectBindingNames nmd [], st.refs⟩)
            (walkFree_extend body capN (st.cur :: outer) .other _)) pr hpr heq
      all_goals cases hn
  · -- a declaring statement inside a block protects the rest of the walk
    intro ctx bp pre d post hn pr hpr heq
    simp only [walkFree] at hpr
    rw [walkFreeL_append, walkFreeL] at hpr
    cases d
    case varStmt p0 dl =>
      simp only [stmtDeclNames] at hn
      have hext_dl := walkFree_extend dl capN (st.cur :: outer) .other
        ⟨(walkFreeL capN (st.cur :: outer) .other pre ⟨[], st.refs⟩).cur ++ declListNames dl,
          (walkFreeL capN (st.cur :: outer) .other pre ⟨[], st.refs⟩).refs⟩
      have hmem2 : n ∈ (walkFree capN (st.cur :: outer) .other (.varStmt p0 dl)
          (walkFreeL capN (st.cur :: outer) .other pre ⟨[], st.refs⟩)).cur := by
        simp only [walkFree]
        exact hext_dl.1 (List.mem_append_right _ hn)
      have h3 := no_new_of_chainHas n (chainHas_of_mem_cur n _ _ hmem2)
        (walkFreeL_extend post capN (st.cur :: outer) .other _) pr hpr heq
      revert h3
      simp only [walkFree]
      intro h3
      exact no_new_of_chainHas n
        (chainHas_of_mem_cur n _ _ (List.mem_append_right _ hn)) hext_dl pr h3 heq
    case fnDecl p0 nmf params body0 =>
      rcases nmf with _ | nm2
      · simp [stmtDeclNames] at hn
      · simp only [stmtDeclNames, List.mem_singleton] at hn
        subst hn
        set st1 := walkFreeL capN (st.cur :: outer) .other pre ⟨[], st.refs⟩ with hst1
        have hmem2 : n ∈ (walkFree capN (st.cur :: outer) .other
            (.fnDecl p0 (some n) params body0) st1).cur := by
          rcases body0 with _ | bb
          · simp only [walkFree]
            exact List.mem_append_right _ (List.mem_singleton_self n)
          · cases bb <;>
              simp only [walkFree] <;>
              exact List.mem_append_right _ (List.mem_singleton_self n)
        have h3 := no_new_of_chainHas n (chainHas_of_mem_cur n _ _ hmem2)
          (walkFreeL_extend post capN (st.cur :: outer) .other _) pr hpr heq
        have hhas : chainHas n (paramNames params)
            ((st1.cur ++ [n]) :: st.cur :: outer) = true :=
          chainHas_of_mem_head n _ _ _
            (List.mem_append_right st1.cur (List.mem_singleton_self n))
        rcases body0 with _ | bb
        · simp only [walkFree] at h3
          exact h3
        · cases bb
          case block bp2 ss =>
            simp only [walkFree] at h3
            exact no_new_of_chainHas n hhas
              (walkFreeL_extend ss capN ((st1.cur ++ [n]) :: st.cur :: outer) .other
                ⟨paramNames params, st1.refs⟩) pr h3 heq
          all_goals {
            simp only [walkFree] at h3
            exact no_new_of_chainHas n hhas
              (walkChildren_extend _ capN ((st1.cur ++ [n]) :: st.cur :: outer)
                ⟨paramNames params, st1.refs⟩) pr h3 heq
          }
    all_goals simp [stmtDeclNames] at hn

/-- Witness for shadowing_respected: in the block
`{ const x = 1; use(x); }` the declaration is the first statement
(empty prefix), so every emitted reference named `x` already belonged to
the prefix walk — applied at this concrete input. -/
theorem shadowing_respected_witness :
    "x" ∈ stmtDeclNames (.varStmt 45 (.varDeclList [.varDecl (.ident "x") (some .lit)]))
    ∧ ∀ pr ∈ (walkFree ["x"] [] ParentCtx.other
        (.block 41 [.varStmt 45 (.varDeclList [.varDecl (.ident "x") (some .lit)]),
          .exprStmt 43 (.call 44 (.ident "use") [.ident "x"])]) ⟨[], []⟩).refs,
        pr.2 = "x" → pr ∈ (walkFreeL ["x"] [[]] ParentCtx.other [] ⟨[], []⟩).refs :=
  ⟨by decide,
   (shadowing_respected ["x"] [] ⟨[], []⟩ "x").2.2.2.2.2.2.2 ParentCtx.other 41 []
     (.varStmt 45 (.varDeclList [.varDecl (.ident "x") (some .lit)]))
     [.exprStmt 43 (.call 44 (.ident "use") [.ident "x"])] (by decide)⟩

/-- C10: a call is treated as an inline-task call exactly when its callee
is the bare identifier `useInlineTask`, it has at least one argument, and
that first argument is syntactically an arrow function or function
expression; a call that fails the predicate contributes no record of its
own while its callee and arguments are still visited; a matching call
with an enclosing function contributes exactly its processed record ahead
of the records of its children; and on the concrete input with a
zero-argument `useInlineTask()` plus a matching call nested inside
`wrap(...)`, only the nested call yields a record. -/
theorem inline_task_call_gate :
    (∀ p callee args,
      isUseInlineTaskCall (.call p callee args) = true
      ↔ callee = .ident "useInlineTask"
        ∧ ∃ a rest, args = a :: rest ∧ isFnLikeExpr a = true)
    ∧ (∀ enc pe p callee args k,
        isUseInlineTaskCall (.call p callee args) = false →
        visit enc pe (.call p callee args) k =
          visit enc false callee k
            ++ visitL enc args (k + countB (visit enc false callee k)))
    ∧ (∀ e pe p callee a rest k,
        isUseInlineTaskCall (.call p callee (a :: rest)) = true →
        visit (some e) pe (.call p callee (a :: rest)) k =
          [processCall e pe p a (a :: rest) k]
            ++ visit (some e) false callee
                (k + countB [processCall e pe p a (a :: rest) k])
            ++ visitL (some e) (a :: rest)
                (k + countB [processCall e pe p a (a :: rest) k]
                   + countB (visit (some e) false callee
                       (k + countB [processCall e pe p a (a :: rest) k]))))
    ∧ (runVisit [compNested]).map recordSummary = [(21, 0, none, none)] := by
  refine ⟨?_, ?_, ?_, by decide⟩
  · intro p callee args
    constructor
    · intro h
      simp only [isUseInlineTaskCall, Bool.and_eq_true] at h
      obtain ⟨⟨h1, h2⟩, h3⟩ := h
      cases callee
      case ident nm =>
        simp only [beq_iff_eq] at h1
        subst h1
        cases args with
        | nil => simp at h3
        | cons a rest => exact ⟨rfl, a, rest, rfl, h3⟩
      all_goals simp at h1
    · rintro ⟨rfl, a, rest, rfl, hfn⟩
      simp [isUseInlineTaskCall, hfn]
  · intro enc pe p callee args k h
    simp only [visit, h, Bool.false_eq_true, if_false]
    rfl
  · intro e pe p callee a rest k h
    simp [visit, h]

/-- Witness for inline_task_call_gate: the `wrap(...)` call of
`compNested` fails the predicate and is decomposed into its children's
records; the nested `useInlineTask(() => {})` call passes it and
contributes its processed record first. -/
theorem inline_task_call_gate_witness :
    (isUseInlineTaskCall (.call 20 (.ident "wrap")
        [.call 21 (.ident "useInlineTask") [.arrowFn 22 [] (.block 23 [])]]) = false
      ∧ visit (some compNested) false
          (.call 20 (.ident "wrap")
            [.call 21 (.ident "useInlineTask") [.arrowFn 22 [] (.block 23 [])]]) 0 =
          visit (some compNested) false (.ident "wrap") 0
            ++ visitL (some compNested)
                [.call 21 (.ident "useInlineTask") [.arrowFn 22 [] (.block 23 [])]]
                (0 + countB (visit (some compNested) false (.ident "wrap") 0)))
    ∧ (isUseInlineTaskCall (.call 21 (.ident "useInlineTask")
        [.arrowFn 22 [] (.block 23 [])]) = true
      ∧ visit (some compNested) false
          (.call 21 (.ident "useInlineTask") [.arrowFn 22 [] (.block 23 [])]) 0 =
          [processCall compNested false 21 (.arrowFn 22 [] (.block 23 []))
              [.arrowFn 22 [] (.block 23 [])] 0]
            ++ visit (some compNested) false (.ident "useInlineTask")
                (0 + countB [processCall compNested false 21 (.arrowFn 22 [] (.block 23 []))
                    [.arrowFn 22 [] (.block 23 [])] 0])
            ++ visitL (some compNested) [.arrowFn 22 [] (.block 23 [])]
                (0 + countB [processCall compNested false 21 (.arrowFn 22 [] (.block 23 []))
                      [.arrowFn 22 [] (.block 23 [])] 0]
                   + countB (visit (some compNested) false (.ident "useInlineTask")
                       (0 + countB [processCall compNested false 21
                           (.arrowFn 22 [] (.block 23 []))
                           [.arrowFn 22 [] (.block 23 [])] 0])))) :=
  ⟨⟨by decide,
    inline_task_call_gate.2.1 (some compNested) false 20 (.ident "wrap")
      [.call 21 (.ident "useInlineTask") [.arrowFn 22 [] (.block 23 [])]] 0 (by decide)⟩,
   by decide,
   inline_task_call_gate.2.2.1 compNested false 21 (.ident "useInlineTask")
     (.arrowFn 22 [] (.block 23 [])) [] 0 (by decide)⟩

set_option synthInstance.maxSize 2048 in
/-- C8, counterexample: on `function C() { return useInlineTask(() => {}); }`
in a `.tsx` file, the matched call has an enclosing function, so
`transformed` is set — yet not a single edit is produced (no capture, no
fresh binding, no injection); the transformer still returns an output
object instead of nothing, refuting «returns nothing when no edits were
produced». -/
theorem transform_no_edits_cex :
    (transform "a.tsx" codeNoEdits [compNoEdits]).map outputSummary =
      some ([(17, 0, none, none)], [], true) := by decide

/-- What a produced output holds: the visit's records, the per-group
injection actions, and the high-resolution map flag. -/
theorem transform_some_eq (id code : String) (ast : List Node) (o : TransformOutput)
    (ho : transform id code ast = some o) :
    o.records = runVisit ast
    ∧ o.injections = (groupsOf (runVisit ast)).map
        (fun g => (g.fnPos, injectIntoReturn g.fnNode g.varNames))
    ∧ o.hiresMap = true := by
  simp only [transform] at ho
  split at ho
  · cases ho
  · split at ho
    · cases ho
    · split at ho
      · cases ho
      · split at ho
        · cases ho
        · cases ho
          exact ⟨rfl, rfl, rfl⟩

/-- C8 as amended: the transformer returns nothing when the file name does
not end in `.jsx`/`.tsx`, when the code lacks the substring
`useInlineTask`, or when the id contains `node_modules`; past those gates
it returns an output exactly when the visit processed at least one
matched call with an enclosing function (the `transformed` flag) — even
when that processing produced zero edits — and any returned output
carries the visit's records and a high-resolution source map. -/
theorem transform_gating (id code : String) (ast : List Node) :
    (strEndsWith ".jsx" id = false → strEndsWith ".tsx" id = false →
        transform id code ast = none)
    ∧ (strHasSub "useInlineTask" code = false → transform id code ast = none)
    ∧ (strHasSub "node_modules" id = true → transform id code ast = none)
    ∧ ((transform id code ast).isSome =
        ((strEndsWith ".jsx" id || strEndsWith ".tsx" id)
          && strHasSub "useInlineTask" code
          && !strHasSub "node_modules" id
          && !((runVisit ast).length == 0)))
    ∧ (∀ o, transform id code ast = some o →
        o.records = runVisit ast
        ∧ o.injections = (groupsOf (runVisit ast)).map
            (fun g => (g.fnPos, injectIntoReturn g.fnNode g.varNames))
        ∧ o.hiresMap = true) := by
  refine ⟨?_, ?_, ?_, ?_, ?_⟩
  · intro h1 h2
    simp [transform, h1, h2]
  · intro h
    simp only [transform, h]
    split <;> simp
  · intro h
    simp only [transform, h]
    split <;> [rfl; skip]
    split <;> simp
  · by_cases h1 : (strEndsWith ".jsx" id || strEndsWith ".tsx" id) = true
    · by_cases h2 : strHasSub "useInlineTask" code = true
      · by_cases h3 : strHasSub "node_modules" id = true
        · simp [transform, h1, h2, h3]
        · by_cases h4 : (runVisit ast).length = 0
          · simp [transform, h1, h2, h3, h4]
          · simp [transform, h1, h2, h3, h4]
      · simp only [Bool.not_eq_true] at h2
        simp [transform, h1, h2]
    · simp at h1
      simp [transform, h1]
  · exact fun o ho => transform_some_eq id code ast o ho

/-- Witness for transform_gating: a `.tsx` file whose code lacks the
substring `useInlineTask` is skipped, and on the no-edit counterexample
input the returned output's records are the visit's records with a
high-resolution map. -/
theorem transform_gating_witness :
    (strHasSub "useInlineTask" "const x = 1" = false
      ∧ transform "a.tsx" "const x = 1" [compNoEdits] = none)
    ∧ ((transform "a.tsx" codeNoEdits [compNoEdits] =
          some ⟨runVisit [compNoEdits],
            (groupsOf (runVisit [compNoEdits])).map
              (fun g => (g.fnPos, injectIntoReturn g.fnNode g.varNames)), true⟩)
      ∧ (runVisit [compNoEdits] = runVisit [compNoEdits]
          ∧ (groupsOf (runVisit [compNoEdits])).map
              (fun g => (g.fnPos, injectIntoReturn g.fnNode g.varNames)) =
            (groupsOf (runVisit [compNoEdits])).map
              (fun g => (g.fnPos, injectIntoReturn g.fnNode g.varNames))
          ∧ true = true)) :=
  ⟨⟨by decide, (transform_gating "a.tsx" "const x = 1" [compNoEdits]).2.1 (by decide)⟩,
   rfl,
   (transform_gating "a.tsx" codeNoEdits [compNoEdits]).2.2.2.2
     ⟨runVisit [compNoEdits],
       (groupsOf (runVisit [compNoEdits])).map
         (fun g => (g.fnPos, injectIntoReturn g.fnNode g.varNames)), true⟩ rfl⟩

theorem countB_nil : countB [] = 0 := rfl

theorem countB_append (a b : List CallRecord) : countB (a ++ b) = countB a + countB b := by
  simp [countB, List.filter_append]

theorem bindings_append {a b : List CallRecord} {k : Nat}
    (ha : a.filterMap (fun r => r.binding) = List.range' k (countB a))
    (hb : b.filterMap (fun r => r.binding) = List.range' (k + countB a) (countB b)) :
    (a ++ b).filterMap (fun r => r.binding) = List.range' k (countB (a ++ b)) := by
  rw [List.filterMap_append, ha, hb, countB_append]
  have h := List.range'_append k (countB a) (countB b) 1
  rw [one_mul] at h
  rw [h, Nat.add_comm]

theorem bindings_append3 {a b c : List CallRecord} {k : Nat}
    (ha : a.filterMap (fun r => r.binding) = List.range' k (countB a))
    (hb : b.filterMap (fun r => r.binding) = List.range' (k + countB a) (countB b))
    (hc : c.filterMap (fun r => r.binding) = List.range' (k + countB a + countB b) (countB c)) :
    (a ++ b ++ c).filterMap (fun r => r.binding) = List.range' k (countB (a ++ b ++ c)) := by
  refine bindings_append (bindings_append ha hb) ?_
  rw [countB_append, ← Nat.add_assoc]
  exact hc

theorem bindings_append4 {a b c d : List CallRecord} {k : Nat}
    (ha : a.filterMap (fun r => r.binding) = List.range' k (countB a))
    (hb : b.filterMap (fun r => r.binding) = List.range' (k + countB a) (countB b))
    (hc : c.filterMap (fun r => r.binding) = List.range' (k + countB a + countB b) (countB c))
    (hd : d.filterMap (fun r => r.binding) =
      List.range' (k + countB a + countB b + countB c) (countB d)) :
    (a ++ b ++ c ++ d).filterMap (fun r => r.binding) =
      List.range' k (countB (a ++ b ++ c ++ d)) := by
  refine bindings_append (bindings_append3 ha hb hc) ?_
  rw [countB_append, countB_append, ← Nat.add_assoc, ← Nat.add_assoc]
  exact hd

theorem processCall_bindings (e : Node) (pe : Bool) (p : Nat) (a : Node)
    (args : List Node) (k : Nat) :
    [processCall e pe p a args k].filterMap (fun r => r.binding) =
      List.range' k (countB [processCall e pe p a args k]) := by
  cases pe <;> rfl

set_option maxHeartbeats 2000000 in
mutual
/-- The fresh-binding indices a visit allocates are exactly the next
`countB` counter values, in order — the driver's `counter++`. -/
theorem visit_bindings (node : Node) : ∀ (enc : Option Node) (pe : Bool) (k : Nat),
    (visit enc pe node k).filterMap (fun r => r.binding) =
      List.range' k (countB (visit enc pe node k)) := by
  intro enc pe k
  cases node with
  | ident nm => rfl
  | lit => rfl
  | omitted => rfl
  | call p callee args =>
    simp only [visit]
    refine bindings_append3 ?_ (visit_bindings callee enc false _)
      (visitL_bindings args enc _)
    by_cases hc : isUseInlineTaskCall (.call p callee args) = true
    · rw [if_pos hc]
      cases enc with
      | none => cases args <;> rfl
      | some e =>
        cases args with
        | nil => rfl
        | cons a rest => exact processCall_bindings e pe p a (a :: rest) k
    · rw [if_neg hc]
      rfl
  | propAccess obj prop =>
    simp only [visit]
    exact bindings_append (visit_bindings obj enc false k) (visit_bindings prop enc false _)
  | objLit props =>
    simp only [visit]
    exact visitL_bindings props enc k
  | propAssign nm value =>
    simp only [visit]
    exact bindings_append (visit_bindings nm enc false k) (visit_bindings value enc false _)
  | shorthandProp nm =>
    simp only [visit]
    exact visit_bindings nm enc false k
  | paren e =>
    simp only [visit]
    exact visit_bindings e enc false k
  | binExpr lhs rhs =>
    simp only [visit]
    exact bindings_append (visit_bindings lhs enc false k) (visit_bindings rhs enc false _)
  | arrowFn p ps b =>
    simp only [visit]
    exact bindings_append (visitL_bindings ps _ k) (visit_bindings b _ false _)
  | fnExpr p nm ps b =>
    simp only [visit]
    exact bindings_append (visitL_bindings ps _ k) (visit_bindings b _ false _)
  | fnDecl p nm ps b =>
    cases b with
    | some bb =>
      simp only [visit]
      exact bindings_append (visitL_bindings ps _ k) (visit_bindings bb _ false _)
    | none =>
      simp only [visit, List.append_nil]
      exact visitL_bindings ps _ k
  | jsxFragment cs =>
    simp only [visit]
    exact visitL_bindings cs enc k
  | jsxElem cs =>
    simp only [visit]
    exact visitL_bindings cs enc k
  | param nm =>
    simp only [visit]
    exact visit_bindings nm enc false k
  | objPattern els =>
    simp only [visit]
    exact visitL_bindings els enc k
  | arrPattern els =>
    simp only [visit]
    exact visitL_bindings els enc k
  | bindingElem propName nm =>
    cases propName with
    | some pp =>
      simp only [visit]
      exact bindings_append (visit_bindings pp enc false k) (visit_bindings nm enc false _)
    | none =>
      simp only [visit, countB_nil, Nat.add_zero, List.nil_append]
      exact visit_bindings nm enc false k
  | varDecl nm vinit =>
    cases vinit with
    | some i =>
      simp only [visit]
      exact bindings_append (visit_bindings nm enc false k) (visit_bindings i enc false _)
    | none =>
      simp only [visit, List.append_nil]
      exact visit_bindings nm enc false k
  | varDeclList ds =>
    simp only [visit]
    exact visitL_bindings ds enc k
  | exprStmt p e =>
    simp only [visit]
    exact visit_bindings e enc true k
  | varStmt p dl =>
    simp only [visit]
    exact visit_bindings dl enc false k
  | retStmt p e =>
    cases e with
    | some x =>
      simp only [visit]
      exact visit_bindings x enc false k
    | none => rfl
  | block p ss =>
    simp only [visit]
    exact visitL_bindings ss enc k
  | ifStmt p cond thenPart elsePart =>
    cases elsePart with
    | some e =>
      simp only [visit]
      exact bindings_append3 (visit_bindings cond enc false k)
        (visit_bindings thenPart enc false _) (visit_bindings e enc false _)
    | none =>
      simp only [visit, List.append_nil]
      exact bindings_append (visit_bindings cond enc false k)
        (visit_bindings thenPart enc false _)
  | forStmt p initPart cond incr body =>
    rcases initPart with _ | i <;> rcases cond with _ | c <;> rcases incr with _ | inc <;>
      simp only [visit, countB_nil, Nat.add_zero, List.nil_append, List.append_nil]
    · exact visit_bindings body enc false k
    · exact bindings_append (visit_bindings inc enc false k) (visit_bindings body enc false _)
    · exact bindings_append (visit_bindings c enc false k) (visit_bindings body enc false _)
    · exact bindings_append3 (visit_bindings c enc false k)
        (visit_bindings inc enc false _) (visit_bindings body enc false _)
    · exact bindings_append (visit_bindings i enc false k) (visit_bindings body enc false _)
    · exact bindings_append3 (visit_bindings i enc false k)
        (visit_bindings inc enc false _) (visit_bindings body enc false _)
    · exact bindings_append3 (visit_bindings i enc false k)
        (visit_bindings c enc false _) (visit_bindings body enc false _)
    · exact bindings_append4 (visit_bindings i enc false k)
        (visit_bindings c enc false _) (visit_bindings inc enc false _)
        (visit_bindings body enc false _)
  | forOfStmt p initPart iterated body =>
    simp only [visit]
    exact bindings_append3 (visit_bindings initPart enc false k)
      (visit_bindings iterated enc false _) (visit_bindings body enc false _)
  | forInStmt p initPart iterated body =>
    simp only [visit]
    exact bindings_append3 (visit_bindings initPart enc false k)
      (visit_bindings iterated enc false _) (visit_bindings body enc false _)
  | tryStmt p tryBlock catchPart finallyPart =>
    rcases catchPart with _ | cc <;> rcases finallyPart with _ | ff <;>
      simp only [visit, countB_nil, Nat.add_zero, List.nil_append, List.append_nil]
    · exact visit_bindings tryBlock enc false k
    · exact bindings_append (visit_bindings tryBlock enc false k)
        (visit_bindings ff enc false _)
    · exact bindings_append (visit_bindings tryBlock enc false k)
        (visit_bindings cc enc false _)
    · exact bindings_append3 (visit_bindings tryBlock enc false k)
        (visit_bindings cc enc false _) (visit_bindings ff enc false _)
  | catchClause decl body =>
    cases decl with
    | some d =>
      simp only [visit]
      exact bindings_append (visit_bindings d enc false k) (visit_bindings body enc false _)
    | none =>
      simp only [visit, countB_nil, Nat.add_zero, List.nil_append]
      exact visit_bindings body enc false k

/-- List version of visit_bindings. -/
theorem visitL_bindings (nodes : List Node) : ∀ (enc : Option Node) (k : Nat),
    (visitL enc nodes k).filterMap (fun r => r.binding) =
      List.range' k (countB (visitL enc nodes k)) := by
  intro enc k
  cases nodes with
  | nil => rfl
  | cons n rest =>
    simp only [visitL]
    exact bindings_append (visit_bindings n enc false k) (visitL_bindings rest enc _)
end

theorem filter_binding_count (rs : List CallRecord) (i : Nat) :
    (rs.filter (fun r2 => r2.binding == some i)).length =
      (rs.filterMap (fun r => r.binding)).count i := by
  induction rs with
  | nil => rfl
  | cons r rest ih =>
    cases hb : r.binding with
    | none =>
      simp only [List.filter_cons, List.filterMap_cons, hb]
      simpa using ih
    | some j =>
      simp only [List.filter_cons, List.filterMap_cons, hb, List.count_cons]
      by_cases hj : j = i
      · subst hj
        simp [ih]
      · simp [hj, Ne.symm hj, ih]

/-- Each allocated binding index identifies exactly one record of the
visit pass. -/
theorem binding_unique (ast : List Node) (r : CallRecord) (hr : r ∈ runVisit ast)
    (i : Nat) (hb : r.binding = some i) :
    ((runVisit ast).filter (fun r2 => r2.binding == some i)).length = 1 := by
  rw [filter_binding_count]
  have hfm := visitL_bindings ast none 0
  have hmem : i ∈ (runVisit ast).filterMap (fun r2 => r2.binding) :=
    List.mem_filterMap.mpr ⟨r, hr, hb⟩
  rw [show runVisit ast = visitL none ast 0 from rfl] at hmem ⊢
  rw [hfm] at hmem ⊢
  exact List.count_eq_one_of_mem (List.nodup_range' 0 (countB (visitL none ast 0))) hmem

theorem addToGroup_mem (gs : List GroupEntry) (e : Node) (v : String) :
    ∃ g ∈ addToGroup gs e v, g.fnPos = nodePos e ∧ v ∈ g.varNames := by
  induction gs with
  | nil =>
    exact ⟨⟨nodePos e, e, [v]⟩, List.mem_singleton_self _, rfl, List.mem_singleton_self v⟩
  | cons g0 gs ih =>
    simp only [addToGroup]
    by_cases h : g0.fnPos = nodePos e
    · rw [if_pos h]
      exact ⟨⟨g0.fnPos, g0.fnNode, g0.varNames ++ [v]⟩, List.mem_cons_self _ _, h,
        List.mem_append_right _ (List.mem_singleton_self v)⟩
    · rw [if_neg h]
      obtain ⟨g, hg, h1, h2⟩ := ih
      exact ⟨g, List.mem_cons_of_mem _ hg, h1, h2⟩

theorem addToGroup_preserve (gs : List GroupEntry) (e : Node) (v : String)
    (g0 : GroupEntry) (hg : g0 ∈ gs) :
    ∃ g1 ∈ addToGroup gs e v, g1.fnPos = g0.fnPos ∧ g1.fnNode = g0.fnNode
      ∧ ∀ x ∈ g0.varNames, x ∈ g1.varNames := by
  induction gs with
  | nil => cases hg
  | cons gh gs ih =>
    simp only [addToGroup]
    by_cases h : gh.fnPos = nodePos e
    · rw [if_pos h]
      rcases List.mem_cons.mp hg with hEq | hMem
      · subst hEq
        exact ⟨⟨g0.fnPos, g0.fnNode, g0.varNames ++ [v]⟩, List.mem_cons_self _ _, rfl, rfl,
          fun x hx => List.mem_append_left _ hx⟩
      · exact ⟨g0, List.mem_cons_of_mem _ hMem, rfl, rfl, fun x hx => hx⟩
    · rw [if_neg h]
      rcases List.mem_cons.mp hg with hEq | hMem
      · subst hEq
        exact ⟨g0, List.mem_cons_self _ _, rfl, rfl, fun x hx => hx⟩
      · obtain ⟨g1, hg1, h1, h2, h3⟩ := ih hMem
        exact ⟨g1, List.mem_cons_of_mem _ hg1, h1, h2, h3⟩

theorem addToGroup_origin (gs : List GroupEntry) (e : Node) (v : String)
    (g1 : GroupEntry) (hg : g1 ∈ addToGroup gs e v) :
    (g1.fnPos = nodePos e ∧ g1.fnNode = e)
    ∨ ∃ g0 ∈ gs, g1.fnPos = g0.fnPos ∧ g1.fnNode = g0.fnNode := by
  induction gs with
  | nil =>
    simp only [addToGroup] at hg
    rw [List.mem_singleton] at hg
    subst hg
    exact Or.inl ⟨rfl, rfl⟩
  | cons gh gs ih =>
    simp only [addToGroup] at hg
    by_cases h : gh.fnPos = nodePos e
    · rw [if_pos h] at hg
      rcases List.mem_cons.mp hg with hEq | hMem
      · subst hEq
        exact Or.inr ⟨gh, List.mem_cons_self _ _, rfl, rfl⟩
      · exact Or.inr ⟨g1, List.mem_cons_of_mem _ hMem, rfl, rfl⟩
    · rw [if_neg h] at hg
      rcases List.mem_cons.mp hg with hEq | hMem
      · subst hEq
        exact Or.inr ⟨g1, List.mem_cons_self _ _, rfl, rfl⟩
      · rcases ih hMem with h1 | ⟨g0, hg0, h1, h2⟩
        · exact Or.inl h1
        · exact Or.inr ⟨g0, List.mem_cons_of_mem _ hg0, h1, h2⟩

theorem foldGroups_preserve (rs : List CallRecord) :
    ∀ (acc : List GroupEntry) (g0 : GroupEntry), g0 ∈ acc →
    ∃ g1 ∈ rs.foldl (fun gs r =>
        match r.binding with
        | some i => addToGroup gs r.enclosingFn (itName i)
        | none => gs) acc,
      g1.fnPos = g0.fnPos ∧ g1.fnNode = g0.fnNode
        ∧ ∀ x ∈ g0.varNames, x ∈ g1.varNames := by
  induction rs with
  | nil => exact fun acc g0 hg => ⟨g0, hg, rfl, rfl, fun x hx => hx⟩
  | cons r rest ih =>
    intro acc g0 hg
    simp only [List.foldl_cons]
    cases hbr : r.binding with
    | none => exact ih acc g0 hg
    | some i =>
      obtain ⟨gm, hgm, m1, m2, m3⟩ := addToGroup_preserve acc r.enclosingFn (itName i) g0 hg
      obtain ⟨g1, hg1, p1, p2, p3⟩ := ih _ gm hgm
      exact ⟨g1, hg1, p1.trans m1, p2.trans m2, fun x hx => p3 x (m3 x hx)⟩

theorem foldGroups_mem (rs : List CallRecord) :
    ∀ (acc : List GroupEntry) (r : CallRecord), r ∈ rs → ∀ (i : Nat), r.binding = some i →
    ∃ g ∈ rs.foldl (fun gs r2 =>
        match r2.binding with
        | some j => addToGroup gs r2.enclosingFn (itName j)
        | none => gs) acc,
      g.fnPos = nodePos r.enclosingFn ∧ itName i ∈ g.varNames := by
  induction rs with
  | nil => exact fun acc r hr => absurd hr (List.not_mem_nil r)
  | cons r0 rest ih =>
    intro acc r hr i hb
    simp only [List.foldl_cons]
    rcases List.mem_cons.mp hr with hEq | hMem
    · subst hEq
      rw [hb]
      obtain ⟨g, hg, h1, h2⟩ := addToGroup_mem acc r.enclosingFn (itName i)
      obtain ⟨g1, hg1, p1, _, p3⟩ := foldGroups_preserve rest _ g hg
      exact ⟨g1, hg1, p1.trans h1, p3 _ h2⟩
    · cases hbr : r0.binding with
      | none => exact ih acc r hMem i hb
      | some j => exact ih _ r hMem i hb

theorem foldGroups_origin (rs : List CallRecord) :
    ∀ (acc : List GroupEntry) (g1 : GroupEntry),
    g1 ∈ rs.foldl (fun gs r2 =>
        match r2.binding with
        | some j => addToGroup gs r2.enclosingFn (itName j)
        | none => gs) acc →
    (∃ g0 ∈ acc, g1.fnPos = g0.fnPos ∧ g1.fnNode = g0.fnNode)
    ∨ (∃ r ∈ rs, ∃ i, r.binding = some i ∧ g1.fnPos = nodePos r.enclosingFn
        ∧ g1.fnNode = r.enclosingFn) := by
  induction rs with
  | nil => exact fun acc g1 hg => Or.inl ⟨g1, hg, rfl, rfl⟩
  | cons r rest ih =>
    intro acc g1 hg
    simp only [List.foldl_cons] at hg
    cases hbr : r.binding with
    | none =>
      rw [hbr] at hg
      rcases ih acc g1 hg with ⟨g0, h0, e1, e2⟩ | ⟨r', hr', i, b, e1, e2⟩
      · exact Or.inl ⟨g0, h0, e1, e2⟩
      · exact Or.inr ⟨r', List.mem_cons_of_mem _ hr', i, b, e1, e2⟩
    | some i =>
      rw [hbr] at hg
      rcases ih _ g1 hg with ⟨g0, h0, e1, e2⟩ | ⟨r', hr', j, b, e1, e2⟩
      · rcases addToGroup_origin acc r.enclosingFn (itName i) g0 h0 with
          ⟨p1, p2⟩ | ⟨g00, hg00, p1, p2⟩
        · exact Or.inr ⟨r, List.mem_cons_self _ _, i, hbr, e1.trans p1, e2.trans p2⟩
        · exact Or.inl ⟨g00, hg00, e1.trans p1, e2.trans p2⟩
      · exact Or.inr ⟨r', List.mem_cons_of_mem _ hr', j, b, e1, e2⟩

theorem hasSub_append_right (q s t : List Char) (h : hasSub q t = true) :
    hasSub q (s ++ t) = true := by
  induction s with
  | nil => exact h
  | cons c cs ih => exact hasSub_cons q c _ ih

theorem hasSub_self_append (q r : List Char) : hasSub q (q ++ r) = true :=
  hasSub_of_isPrefixOf q _ (isPrefixOf_append_self q r)

/-- Every injected variable name occurs, in its child-expression braces,
inside the injection text. -/
theorem mem_injectionString (vs : List String) (v : String) (hv : v ∈ vs) :
    strHasSub ("\x7b" ++ v ++ "\x7d") (injectionString vs) = true := by
  induction vs with
  | nil => cases hv
  | cons w rest ih =>
    rcases List.mem_cons.mp hv with rfl | hm
    · exact hasSub_self_append ("\x7b" ++ v ++ "\x7d").toList (injectionString rest).toList
    · exact hasSub_append_right ("\x7b" ++ v ++ "\x7d").toList
        ("\x7b" ++ w ++ "\x7d").toList (injectionString rest).toList (ih hm)

/-- `injectIntoReturn` splices the same injection text around each return
expression the injection step targets. -/
theorem injectIntoReturn_eq (fn : Node) (vs : List String) :
    injectIntoReturn fn vs =
      (returnExprsOf fn).map (fun e => injectAroundExpr e (injectionString vs)) := by
  cases fn
  case arrowFn p ps body => cases body <;> rfl
  case fnExpr p nm ps body => cases body <;> rfl
  case fnDecl p nm ps body =>
    rcases body with _ | bb
    · rfl
    · cases bb <;> rfl
  all_goals rfl

theorem mem_eq_of_length_le_one {α : Type} {l : List α} (h : l.length ≤ 1)
    {a b : α} (ha : a ∈ l) (hb : b ∈ l) : a = b := by
  cases l with
  | nil => cases ha
  | cons x t =>
    cases t with
    | nil =>
      rw [List.mem_singleton] at ha hb
      exact ha.trans hb.symm
    | cons y u =>
      simp only [List.length_cons] at h
      omega

/-- C5: for every inline-task call processed as an expression statement
inside an enclosing function (a record carrying a fresh-binding index),
the output contains exactly one fresh `__it_<n>` binding with that index;
the binding's name is pushed into the group of the enclosing function
(identified by its start position, which determines the node on any
coherent parse); and the output's injection actions for that function
splice, around every return expression of the function (the single body
expression of an expression-bodied arrow, or each return statement's
expression reachable without crossing a nested function), an injection
text containing the child-expression slot `{__it_<n>}`. -/
theorem fresh_binding_injected (ast : List Node)
    (hcoh : ∀ r1 ∈ runVisit ast, ∀ r2 ∈ runVisit ast,
      nodePos r1.enclosingFn = nodePos r2.enclosingFn → r1.enclosingFn = r2.enclosingFn)
    (id code : String) (o : TransformOutput) (ho : transform id code ast = some o)
    (r : CallRecord) (hr : r ∈ o.records) (i : Nat) (hb : r.binding = some i) :
    (o.records.filter (fun r2 => r2.binding == some i)).length = 1
    ∧ ∃ g ∈ groupsOf o.records,
        g.fnNode = r.enclosingFn
        ∧ itName i ∈ g.varNames
        ∧ (g.fnPos, injectIntoReturn g.fnNode g.varNames) ∈ o.injections
        ∧ injectIntoReturn g.fnNode g.varNames =
            (returnExprsOf r.enclosingFn).map
              (fun e => injectAroundExpr e (injectionString g.varNames))
        ∧ strHasSub ("\x7b" ++ itName i ++ "\x7d") (injectionString g.varNames) = true := by
  have hrec := (transform_some_eq id code ast o ho).1
  have hinj := (transform_some_eq id code ast o ho).2.1
  rw [hrec] at hr
  constructor
  · rw [hrec]
    exact binding_unique ast r hr i hb
  · obtain ⟨g, hg, hpos, hmemv⟩ := foldGroups_mem (runVisit ast) [] r hr i hb
    have hgg : g ∈ groupsOf (runVisit ast) := hg
    rcases foldGroups_origin (runVisit ast) [] g hg with ⟨g0, h0, _, _⟩ | horig
    · cases h0
    · obtain ⟨r', hr', i', hb', e1, e2⟩ := horig
      have hfnEq : r'.enclosingFn = r.enclosingFn :=
        hcoh r' hr' r hr (e1.symm.trans hpos)
      have hfn : g.fnNode = r.enclosingFn := e2.trans hfnEq
      refine ⟨g, ?_, hfn, hmemv, ?_, ?_, ?_⟩
      · rw [hrec]
        exact hgg
      · rw [hinj]
        exact List.mem_map_of_mem _ hgg
      · rw [hfn] at *
        rw [injectIntoReturn_eq]
      · exact mem_injectionString g.varNames (itName i) hmemv

/-- Witness for fresh_binding_injected on `compBasic`: the single
processed call allocates binding 0, the group of the enclosing component
holds `__it_0`, and the injection machinery targets that component. -/
theorem fresh_binding_injected_witness :
    ((runVisit [compBasic]).filter (fun r2 => r2.binding == some 0)).length = 1
    ∧ ∃ g ∈ groupsOf (runVisit [compBasic]), g.fnNode = compBasic ∧ itName 0 ∈ g.varNames := by
  have hcoh : ∀ r1 ∈ runVisit [compBasic], ∀ r2 ∈ runVisit [compBasic],
      nodePos r1.enclosingFn = nodePos r2.enclosingFn → r1.enclosingFn = r2.enclosingFn :=
    fun r1 h1 r2 h2 _ =>
      congrArg CallRecord.enclosingFn (mem_eq_of_length_le_one (by decide) h1 h2)
  cases htr : transform "a.tsx" "useInlineTask" [compBasic] with
  | none =>
    have hs : (transform "a.tsx" "useInlineTask" [compBasic]).isSome = true := by decide
    rw [htr] at hs
    simp at hs
  | some o =>
    have hro := transform_some_eq "a.tsx" "useInlineTask" [compBasic] o htr
    have hr : (⟨30, compBasic, 0, applyAutoCapture cbBasic compBasic 30, some 0⟩ :
        CallRecord) ∈ o.records := by
      rw [hro.1]
      exact List.mem_singleton.mpr rfl
    have h := fresh_binding_injected [compBasic] hcoh "a.tsx" "useInlineTask" o htr
      ⟨30, compBasic, 0, applyAutoCapture cbBasic compBasic 30, some 0⟩ hr 0 rfl
    rw [hro.1] at h
    obtain ⟨g, hg, h1, h2, _⟩ := h.2
    exact ⟨h.1, g, hg, h1, h2⟩
